import Mathlib

/-!
Verification of `src/shared/queue.c` (BlueZ generic reference-counted queue).

Shallow embedding conventions:
* `void *` handles are modelled as `Nat`, with `0` standing for `NULL`
  (so the C truthiness test `!data` becomes `data = 0`, and functions that
  return a `void *` return `0` for `NULL`).
* `struct queue_entry` nodes live in an explicit heap: an association list
  from node addresses (`Nat`) to `QueueEntry` records.  `malloc` is modelled
  by an allocation counter `fresh` that always hands out unused addresses,
  and `free` removes the binding from the heap.  Pointer identity used by
  `queue_find_entry` is address equality.
* The single `struct queue` under consideration is modelled by `QState`,
  which also carries the node heap and the allocator.  The C `!queue`
  guards correspond to the queue argument being present; all operations
  are modelled for a present queue.  `free(queue)` is modelled by the
  `alive` flag becoming `false`.
* Allocation failure of `new0` in the push operations is modelled by an
  explicit `allocOk` parameter (the C code returns `false` before touching
  the queue in that case).
* Caller-supplied callbacks: match/predicate functions become
  `Nat → Nat → Bool` (handle, user data); destructor callbacks have no
  effect on the queue state, so destructive operations instead return the
  trace of handles the destructor was invoked on (empty when no destructor
  is supplied, flag `useDestroy`).  The `queue_foreach` callback may mutate
  the queue, so it is modelled as `QState → Nat → QState`.
* The C `while`/`for` walks over next-links are modelled with explicit
  fuel.  Loops whose iteration count is bounded by the number of live
  nodes use `heap.length + 1` fuel computed at call time; `queue_foreach`
  takes the fuel as a parameter because its callback may grow the queue.
  Out-of-fuel and dangling-pointer reads (undefined behaviour in C) return
  the same value as the natural loop exit.
-/

/-- `struct queue_entry`: one stored handle plus the next-link
(`none` models a `NULL` next pointer). -/
structure QueueEntry where
  data : Nat
  next : Option Nat
deriving DecidableEq, Repr

/-- The node heap: allocated `queue_entry` nodes, keyed by address. -/
abbrev Heap := List (Nat × QueueEntry)

/-- Read a node from the heap (dereference a `struct queue_entry *`). -/
def hlookup (h : Heap) (a : Nat) : Option QueueEntry :=
  match h with
  | [] => none
  | x :: t => if x.1 = a then some x.2 else hlookup t a

/-- Pointer write `node->next = nx` for the node at address `t`. -/
def setNext (h : Heap) (t : Nat) (nx : Option Nat) : Heap :=
  h.map (fun x => if x.1 = t then (x.1, ⟨x.2.data, nx⟩) else x)

/-- `free` of the node at address `a`: drop its (first) binding. -/
def herase (h : Heap) (a : Nat) : Heap :=
  match h with
  | [] => []
  | x :: t => if x.1 = a then t else x :: herase t a

/-- `struct queue` together with the node heap and the allocator state.
`alive` records whether the `struct queue` itself is still allocated. -/
structure QState where
  heap : Heap
  fresh : Nat
  alive : Bool
  ref_count : Int
  head : Option Nat
  tail : Option Nat
  entries : Nat
deriving DecidableEq, Repr

/-- `queue_ref`: increment the reference count. -/
def queue_ref (s : QState) : QState :=
  { s with ref_count := s.ref_count + 1 }

/-- `queue_unref`: decrement the reference count and free the queue
structure when it reaches zero. -/
def queue_unref (s : QState) : QState :=
  if s.ref_count - 1 = 0 then
    { s with ref_count := s.ref_count - 1, alive := false }
  else
    { s with ref_count := s.ref_count - 1 }

/-- `queue_new`: fresh empty queue with one reference. -/
def queue_new : QState :=
  { heap := [], fresh := 0, alive := true, ref_count := 1,
    head := none, tail := none, entries := 0 }

/-- `queue_push_tail`.  `allocOk = false` models `new0` returning `NULL`. -/
def queue_push_tail (s : QState) (d : Nat) (allocOk : Bool) : Bool × QState :=
  if allocOk = false then (false, s)
  else
    -- entry->data = data; entry->next = NULL;
    let n := s.fresh
    let h1 : Heap := (n, ⟨d, none⟩) :: s.heap
    -- if (queue->tail) queue->tail->next = entry;
    let h2 := match s.tail with
              | some t => setNext h1 t (some n)
              | none => h1
    -- queue->tail = entry;
    let s1 := { s with heap := h2, fresh := s.fresh + 1, tail := some n }
    -- if (!queue->head) queue->head = entry;
    let s2 := if s1.head = none then { s1 with head := some n } else s1
    -- queue->entries++;
    (true, { s2 with entries := s2.entries + 1 })

/-- `queue_push_head`.  `allocOk = false` models `new0` returning `NULL`. -/
def queue_push_head (s : QState) (d : Nat) (allocOk : Bool) : Bool × QState :=
  if allocOk = false then (false, s)
  else
    -- entry->data = data; entry->next = queue->head;
    let n := s.fresh
    let h1 : Heap := (n, ⟨d, s.head⟩) :: s.heap
    -- queue->head = entry;
    let s1 := { s with heap := h1, fresh := s.fresh + 1, head := some n }
    -- if (!queue->tail) queue->tail = entry;
    let s2 := if s1.tail = none then { s1 with tail := some n } else s1
    -- queue->entries++;
    (true, { s2 with entries := s2.entries + 1 })

/-- `queue_pop_head`: returns the popped handle (`0` for a `NULL` return). -/
def queue_pop_head (s : QState) : Nat × QState :=
  match s.head with
  | none => (0, s)
  | some a =>
    match hlookup s.heap a with
    | none => (0, s)  -- dangling head: undefined behaviour in C
    | some e =>
      let s1 := match e.next with
                | none => { s with head := none, tail := none }
                | some _ => { s with head := e.next }
      (e.data, { s1 with heap := herase s1.heap a, entries := s1.entries - 1 })

/-- `queue_peek_head` (`0` for a `NULL` return; state returned unchanged). -/
def queue_peek_head (s : QState) : Nat × QState :=
  match s.head with
  | none => (0, s)
  | some a =>
    match hlookup s.heap a with
    | none => (0, s)
    | some e => (e.data, s)

/-- `queue_peek_tail` (`0` for a `NULL` return; state returned unchanged). -/
def queue_peek_tail (s : QState) : Nat × QState :=
  match s.tail with
  | none => (0, s)
  | some a =>
    match hlookup s.heap a with
    | none => (0, s)
    | some e => (e.data, s)

/-- `queue_find_entry`: scan for a node whose address equals `target`
(pointer identity; `target = none` is the `NULL` pointer, matched never). -/
def findEntryLoop (target : Option Nat) (fuel : Nat) (h : Heap)
    (cur : Option Nat) : Bool :=
  match cur with
  | none => false
  | some a =>
    if some a = target then true
    else
      match fuel with
      | 0 => false
      | fuel + 1 =>
        match hlookup h a with
        | none => false
        | some e => findEntryLoop target fuel h e.next

/-- `queue_find_entry` entry point. -/
def queue_find_entry (s : QState) (target : Option Nat) : Bool :=
  findEntryLoop target (s.heap.length + 1) s.heap s.head

/-- Loop body of `queue_foreach`.  The callback `f` receives the state and
the visited handle and returns the (possibly mutated) state; the returned
list is the trace of handles the callback was invoked on. -/
def foreachLoop (f : QState → Nat → QState) (fuel : Nat) (s : QState)
    (cur : Option Nat) : QState × List Nat :=
  match cur with
  | none => (s, [])
  | some a =>
    -- while (entry && queue->ref_count > 1)
    if s.ref_count ≤ 1 then (s, [])
    else
      match fuel with
      | 0 => (s, [])
      | fuel + 1 =>
        match hlookup s.heap a with
        | none => (s, [])  -- dangling cursor: undefined behaviour in C
        | some e =>
          -- tmp = entry; entry = tmp->next; function(tmp->data, user_data);
          let s2 := f s e.data
          -- if (!queue_find_entry(queue, entry)) break;
          if queue_find_entry s2 e.next then
            let r := foreachLoop f fuel s2 e.next
            (r.1, e.data :: r.2)
          else (s2, [e.data])

/-- `queue_foreach` (the C `function` argument is present; an absent
callback makes the call a no-op and is not modelled). -/
def queue_foreach (fuel : Nat) (s : QState) (f : QState → Nat → QState) :
    QState × List Nat :=
  match s.head with
  | none => (s, [])
  | some _ =>
    let s1 := queue_ref s
    let r := foreachLoop f fuel s1 s1.head
    (queue_unref r.1, r.2)

/-- `direct_match`: identity comparison of handles. -/
def direct_match (a b : Nat) : Bool := a == b

/-- Scan loop of `queue_find`. -/
def findLoop (p : Nat → Nat → Bool) (md : Nat) (fuel : Nat) (h : Heap)
    (cur : Option Nat) : Nat :=
  match cur with
  | none => 0
  | some a =>
    match fuel with
    | 0 => 0
    | fuel + 1 =>
      match hlookup h a with
      | none => 0
      | some e => if p e.data md then e.data else findLoop p md fuel h e.next

/-- `queue_find`.  When `f` is absent the function returns `NULL` up front
(the subsequent `if (!function) function = direct_match;` line in the
source is dead code and never runs).  The state is returned unchanged:
the function performs no store to the queue. -/
def queue_find (s : QState) (f : Option (Nat → Nat → Bool)) (md : Nat) :
    Nat × QState :=
  match f with
  | none => (0, s)
  | some g => (findLoop g md (s.heap.length + 1) s.heap s.head, s)

/-- Scan loop of `queue_remove` (`prev` is the previous node's address). -/
def removeLoop (d : Nat) (fuel : Nat) (s : QState) (cur prev : Option Nat) :
    Bool × QState :=
  match cur with
  | none => (false, s)
  | some a =>
    match fuel with
    | 0 => (false, s)
    | fuel + 1 =>
      match hlookup s.heap a with
      | none => (false, s)
      | some e =>
        if e.data = d then
          -- if (prev) prev->next = entry->next; else queue->head = entry->next;
          let s1 := match prev with
                    | some pa => { s with heap := setNext s.heap pa e.next }
                    | none => { s with head := e.next }
          -- if (!entry->next) queue->tail = prev;
          let s2 := match e.next with
                    | none => { s1 with tail := prev }
                    | some _ => s1
          -- free(entry); queue->entries--; return true;
          (true, { s2 with heap := herase s2.heap a, entries := s2.entries - 1 })
        else
          removeLoop d fuel s e.next (some a)

/-- `queue_remove`: fails fast on a `NULL` handle (`d = 0`). -/
def queue_remove (s : QState) (d : Nat) : Bool × QState :=
  if d = 0 then (false, s)
  else removeLoop d (s.heap.length + 1) s s.head none

/-- Scan loop of `queue_remove_if`. -/
def removeIfLoop (p : Nat → Nat → Bool) (ud : Nat) (fuel : Nat) (s : QState)
    (cur prev : Option Nat) : Nat × QState :=
  match cur with
  | none => (0, s)
  | some a =>
    match fuel with
    | 0 => (0, s)
    | fuel + 1 =>
      match hlookup s.heap a with
      | none => (0, s)
      | some e =>
        if p e.data ud then
          let s1 := match prev with
                    | some pa => { s with heap := setNext s.heap pa e.next }
                    | none => { s with head := e.next }
          let s2 := match e.next with
                    | none => { s1 with tail := prev }
                    | some _ => s1
          (e.data, { s2 with heap := herase s2.heap a, entries := s2.entries - 1 })
        else
          removeIfLoop p ud fuel s e.next (some a)

/-- `queue_remove_if`: absent predicate returns `NULL` up front. -/
def queue_remove_if (s : QState) (p : Option (Nat → Nat → Bool)) (ud : Nat) :
    Nat × QState :=
  match p with
  | none => (0, s)
  | some g => removeIfLoop g ud (s.heap.length + 1) s s.head none

/-- Predicate branch loop of `queue_remove_all`: returns the number of
removed nodes, the new state and the destructor trace. -/
def removeAllLoop (p : Nat → Nat → Bool) (ud : Nat) (useDestroy : Bool)
    (fuel : Nat) (s : QState) (cur prev : Option Nat) :
    Nat × QState × List Nat :=
  match cur with
  | none => (0, s, [])
  | some a =>
    match fuel with
    | 0 => (0, s, [])
    | fuel + 1 =>
      match hlookup s.heap a with
      | none => (0, s, [])
      | some e =>
        if p e.data ud then
          let s1 := match prev with
                    | some pa => { s with heap := setNext s.heap pa e.next }
                    | none => { s with head := e.next }
          let s2 := match e.next with
                    | none => { s1 with tail := prev }
                    | some _ => s1
          -- entry = entry->next; if (destroy) destroy(tmp->data); free(tmp); count++;
          let s3 := { s2 with heap := herase s2.heap a }
          let r := removeAllLoop p ud useDestroy fuel s3 e.next prev
          (r.1 + 1, r.2.1, (if useDestroy then [e.data] else []) ++ r.2.2)
        else
          removeAllLoop p ud useDestroy fuel s e.next (some a)

/-- Destroy walk shared by `queue_destroy` and the no-predicate branch of
`queue_remove_all`: frees every node reachable from `cur`, returning the
state, the destructor trace and the count of freed nodes. -/
def destroyLoop (useDestroy : Bool) (fuel : Nat) (s : QState)
    (cur : Option Nat) : QState × List Nat × Nat :=
  match cur with
  | none => (s, [], 0)
  | some a =>
    match fuel with
    | 0 => (s, [], 0)
    | fuel + 1 =>
      match hlookup s.heap a with
      | none => (s, [], 0)
      | some e =>
        -- if (destroy) destroy(entry->data); entry = entry->next; free(tmp);
        let r := destroyLoop useDestroy fuel { s with heap := herase s.heap a } e.next
        (r.1, (if useDestroy then [e.data] else []) ++ r.2.1, r.2.2 + 1)

/-- `queue_remove_all`: filtered removal with a predicate, clear-all
without one (the latter also resets head/tail/entries explicitly). -/
def queue_remove_all (s : QState) (p : Option (Nat → Nat → Bool)) (ud : Nat)
    (useDestroy : Bool) : Nat × QState × List Nat :=
  match p with
  | some g =>
    let r := removeAllLoop g ud useDestroy (s.heap.length + 1) s s.head none
    (r.1, { r.2.1 with entries := r.2.1.entries - r.1 }, r.2.2)
  | none =>
    let r := destroyLoop useDestroy (s.heap.length + 1) s s.head
    (r.2.2, { r.1 with head := none, tail := none, entries := 0 }, r.2.1)

/-- `queue_destroy`: destroy walk followed by `queue_unref`.  Note that the
head/tail/entries fields are left stale, exactly as in the C source. -/
def queue_destroy (s : QState) (useDestroy : Bool) : QState × List Nat :=
  let r := destroyLoop useDestroy (s.heap.length + 1) s s.head
  (queue_unref r.1, r.2.1)

/-- `queue_length`. -/
def queue_length (s : QState) : Nat := s.entries

/-- `queue_isempty`. -/
def queue_isempty (s : QState) : Bool := s.entries == 0

/-! ## Chains and the structural invariant -/

/-- A chain: the sequence of (address, node) pairs of a next-link walk. -/
abbrev Chain := List (Nat × QueueEntry)

/-- Follow next-links from `p` until a `NULL` next pointer, collecting the
visited nodes; `none` on fuel exhaustion or a dangling pointer. -/
def chainFrom (h : Heap) (fuel : Nat) (p : Option Nat) : Option Chain :=
  match p with
  | none => some []
  | some a =>
    match fuel with
    | 0 => none
    | fuel + 1 =>
      match hlookup h a with
      | none => none
      | some e => (chainFrom h fuel e.next).map ((a, e) :: ·)

/-- The chain of nodes reachable from the queue's head. -/
def qchain (s : QState) : Option Chain :=
  chainFrom s.heap s.heap.length s.head

/-- Structural well-formedness of a queue state: the walk from head
reaches a node with no next-link, `entries` counts exactly the reachable
nodes, the heap holds exactly those nodes, `tail` is the last node of the
walk, and the allocator is ahead of every live address. -/
def WF (s : QState) : Prop :=
  ∃ c : Chain,
    qchain s = some c ∧
    s.entries = c.length ∧
    s.heap.length = c.length ∧
    s.tail = (c.map Prod.fst).getLast? ∧
    (c.map Prod.fst).Nodup ∧
    (s.heap.map Prod.fst).Nodup ∧
    (∀ a ∈ s.heap.map Prod.fst, a < s.fresh)

/-- `Seg h p c q`: following next-links from `p` visits exactly the nodes
of `c` (present in `h` with those contents) and ends at pointer `q`. -/
inductive Seg (h : Heap) : Option Nat → Chain → Option Nat → Prop
  | nil (p : Option Nat) : Seg h p [] p
  | cons (a : Nat) (e : QueueEntry) (c : Chain) (stop : Option Nat)
      (hl : hlookup h a = some e) (hs : Seg h e.next c stop) :
      Seg h (some a) ((a, e) :: c) stop

/-- Rewrite the last node's next-link of a chain (the effect of
`prev->next = ...` / `queue->tail->next = entry` on the chain's pairs). -/
def setLastNext (c : Chain) (nx : Option Nat) : Chain :=
  match c with
  | [] => []
  | [x] => [(x.1, ⟨x.2.data, nx⟩)]
  | x :: y :: t => x :: setLastNext (y :: t) nx

/-- One step of a `push_head`/`push_tail`/`pop_head` workload
(the `Bool` on a push is whether node allocation succeeds). -/
inductive QOp where
  | pushHead (d : Nat) (ok : Bool)
  | pushTail (d : Nat) (ok : Bool)
  | popHead

/-- Run a workload, counting successful pushes (those that returned
`true`) and non-empty pops (those taken with a present head). -/
def runOps : QState → List QOp → QState × Nat × Nat
  | s, [] => (s, 0, 0)
  | s, QOp.pushHead d ok :: rest =>
    let r := queue_push_head s d ok
    let t := runOps r.2 rest
    (t.1, (if r.1 then 1 else 0) + t.2.1, t.2.2)
  | s, QOp.pushTail d ok :: rest =>
    let r := queue_push_tail s d ok
    let t := runOps r.2 rest
    (t.1, (if r.1 then 1 else 0) + t.2.1, t.2.2)
  | s, QOp.popHead :: rest =>
    let t := runOps (queue_pop_head s).2 rest
    (t.1, t.2.1, (if s.head.isSome then 1 else 0) + t.2.2)

/-- A queue holding `[a, b, c, d]` head to tail, built by four pushes. -/
def mk4 (a b c d : Nat) : QState :=
  (queue_push_tail ((queue_push_tail ((queue_push_tail
    ((queue_push_tail queue_new a true).2) b true).2) c true).2) d true).2

/-! ### Heap lemmas -/


theorem hlookup_mem_keys {h : Heap} {a : Nat} {e : QueueEntry}
    (hl : hlookup h a = some e) : a ∈ h.map Prod.fst := by
  induction h with
  | nil => simp [hlookup] at hl
  | cons x t ih =>
    rw [hlookup] at hl
    by_cases hx : x.1 = a
    · simp [hx]
    · simp only [List.map_cons, List.mem_cons]
      exact Or.inr (ih (by simpa [hx] using hl))

theorem mem_keys_hlookup {h : Heap} {a : Nat}
    (hm : a ∈ h.map Prod.fst) : ∃ e, hlookup h a = some e := by
  induction h with
  | nil => simp at hm
  | cons x t ih =>
    rw [hlookup]
    by_cases hx : x.1 = a
    · exact ⟨x.2, by simp [hx]⟩
    · simp only [List.map_cons, List.mem_cons] at hm
      rcases hm with hm | hm
      · exact absurd hm.symm hx
      · simpa [hx] using ih hm

theorem keys_setNext (h : Heap) (t : Nat) (nx : Option Nat) :
    (setNext h t nx).map Prod.fst = h.map Prod.fst := by
  induction h with
  | nil => rfl
  | cons x l ih =>
    simp only [setNext, List.map_cons] at *
    by_cases hx : x.1 = t <;> simp [hx, ih]

theorem length_setNext (h : Heap) (t : Nat) (nx : Option Nat) :
    (setNext h t nx).length = h.length := by
  simp [setNext]

theorem hlookup_setNext_self {h : Heap} {t : Nat} {e : QueueEntry}
    (hl : hlookup h t = some e) (nx : Option Nat) :
    hlookup (setNext h t nx) t = some ⟨e.data, nx⟩ := by
  induction h with
  | nil => simp [hlookup] at hl
  | cons x l ih =>
    rw [hlookup] at hl
    by_cases hx : x.1 = t
    · rw [if_pos hx] at hl
      rw [setNext, List.map_cons, if_pos hx, hlookup, if_pos hx]
      simp only [Option.some.injEq] at hl
      rw [← hl]
    · rw [if_neg hx] at hl
      rw [setNext, List.map_cons, if_neg hx, hlookup, if_neg hx]
      exact ih hl

theorem hlookup_setNext_ne {h : Heap} {t b : Nat} (hne : b ≠ t)
    (nx : Option Nat) : hlookup (setNext h t nx) b = hlookup h b := by
  induction h with
  | nil => rfl
  | cons x l ih =>
    by_cases hx : x.1 = t
    · have hxb : x.1 ≠ b := fun hh => hne (by rw [← hh, hx])
      rw [setNext, List.map_cons, if_pos hx, hlookup, if_neg hxb,
        hlookup, if_neg hxb]
      exact ih
    · rw [setNext, List.map_cons, if_neg hx, hlookup, hlookup]
      by_cases hb : x.1 = b
      · rw [if_pos hb, if_pos hb]
      · rw [if_neg hb, if_neg hb]
        exact ih

theorem keys_herase (h : Heap) (a : Nat) :
    (herase h a).map Prod.fst = (h.map Prod.fst).erase a := by
  induction h with
  | nil => rfl
  | cons x l ih =>
    rw [herase]
    by_cases hx : x.1 = a
    · rw [if_pos hx, List.map_cons, hx, List.erase_cons_head]
    · rw [if_neg hx, List.map_cons, List.map_cons,
        List.erase_cons_tail (by simp [hx]), ih]

theorem hlookup_herase_ne {h : Heap} {a b : Nat} (hne : b ≠ a) :
    hlookup (herase h a) b = hlookup h b := by
  induction h with
  | nil => rfl
  | cons x l ih =>
    rw [herase]
    by_cases hx : x.1 = a
    · have hxb : x.1 ≠ b := fun hh => hne (by rw [← hh, hx])
      rw [if_pos hx, hlookup, if_neg hxb]
    · rw [if_neg hx, hlookup, hlookup]
      by_cases hb : x.1 = b
      · rw [if_pos hb, if_pos hb]
      · rw [if_neg hb, if_neg hb]
        exact ih

theorem length_herase_mem {h : Heap} {a : Nat}
    (hm : a ∈ h.map Prod.fst) : (herase h a).length + 1 = h.length := by
  induction h with
  | nil => simp at hm
  | cons x l ih =>
    rw [herase]
    by_cases hx : x.1 = a
    · rw [if_pos hx]
      simp
    · rw [if_neg hx, List.length_cons, List.length_cons]
      simp only [List.map_cons, List.mem_cons] at hm
      rcases hm with hm | hm
      · exact absurd hm.symm hx
      · rw [ih hm]

/-! ### Chain segment lemmas -/

theorem seg_nil_inv {h : Heap} {p q : Option Nat} (hs : Seg h p [] q) :
    p = q := by
  cases hs
  rfl

theorem seg_cons_inv {h : Heap} {p q : Option Nat} {a : Nat}
    {e : QueueEntry} {c : Chain} (hs : Seg h p ((a, e) :: c) q) :
    p = some a ∧ hlookup h a = some e ∧ Seg h e.next c q := by
  cases hs
  exact ⟨rfl, by assumption, by assumption⟩

theorem seg_append {h : Heap} {p q r : Option Nat} {c1 c2 : Chain}
    (h1 : Seg h p c1 q) (h2 : Seg h q c2 r) : Seg h p (c1 ++ c2) r := by
  induction h1 with
  | nil => exact h2
  | cons a e c stop hl hs ih => exact Seg.cons a e _ r hl (ih h2)

theorem seg_split {h : Heap} {p r : Option Nat} :
    ∀ {c1 c2 : Chain}, Seg h p (c1 ++ c2) r →
      ∃ q, Seg h p c1 q ∧ Seg h q c2 r := by
  intro c1
  induction c1 generalizing p with
  | nil => exact fun hs => ⟨p, Seg.nil p, hs⟩
  | cons x t ih =>
    intro c2 hs
    rw [List.cons_append] at hs
    obtain ⟨hp, hl, hs'⟩ := seg_cons_inv (a := x.1) (e := x.2) (c := t ++ c2) hs
    obtain ⟨q, hq1, hq2⟩ := ih hs'
    exact ⟨q, hp ▸ Seg.cons x.1 x.2 t q hl hq1, hq2⟩

theorem seg_frame {h h' : Heap} {p q : Option Nat} {c : Chain}
    (hs : Seg h p c q)
    (hf : ∀ x ∈ c.map Prod.fst, hlookup h' x = hlookup h x) :
    Seg h' p c q := by
  induction hs with
  | nil => exact Seg.nil _
  | cons a e c stop hl hs ih =>
    refine Seg.cons a e c stop ?_ (ih fun x hx => hf x (by simp [hx]))
    rw [hf a (by simp), hl]

theorem seg_mem_lookup {h : Heap} {p q : Option Nat} {c : Chain}
    (hs : Seg h p c q) {a : Nat} {e : QueueEntry} (hm : (a, e) ∈ c) :
    hlookup h a = some e := by
  induction hs with
  | nil => simp at hm
  | cons b f c stop hl hs ih =>
    rcases List.mem_cons.mp hm with hm | hm
    · cases hm
      exact hl
    · exact ih hm

theorem seg_keys_subset {h : Heap} {p q : Option Nat} {c : Chain}
    (hs : Seg h p c q) : c.map Prod.fst ⊆ h.map Prod.fst := by
  intro a ha
  simp only [List.mem_map] at ha
  obtain ⟨x, hx, rfl⟩ := ha
  exact hlookup_mem_keys (seg_mem_lookup hs (by simpa using hx))

theorem seg_none_start {h : Heap} {c : Chain} {q : Option Nat}
    (hs : Seg h none c q) : c = [] ∧ q = none := by
  cases hs
  exact ⟨rfl, rfl⟩

theorem seg_of_chainFrom {h : Heap} :
    ∀ (fuel : Nat) (p : Option Nat) (c : Chain),
      chainFrom h fuel p = some c → Seg h p c none := by
  intro fuel
  induction fuel with
  | zero =>
    intro p c hc
    cases p with
    | none =>
      simp only [chainFrom, Option.some.injEq] at hc
      exact hc ▸ Seg.nil none
    | some a => simp [chainFrom] at hc
  | succ fuel ih =>
    intro p c hc
    cases p with
    | none =>
      simp only [chainFrom, Option.some.injEq] at hc
      exact hc ▸ Seg.nil none
    | some a =>
      rw [chainFrom] at hc
      cases hl : hlookup h a with
      | none => rw [hl] at hc; simp at hc
      | some e =>
        rw [hl] at hc
        simp only [Option.map_eq_some'] at hc
        obtain ⟨c', hc', rfl⟩ := hc
        exact Seg.cons a e c' none hl (ih e.next c' hc')

theorem chainFrom_of_seg {h : Heap} :
    ∀ {c : Chain} {p : Option Nat} {fuel : Nat},
      Seg h p c none → c.length ≤ fuel → chainFrom h fuel p = some c := by
  intro c
  induction c with
  | nil =>
    intro p fuel hs _
    have hp := seg_nil_inv hs
    cases fuel <;> simp [chainFrom, hp]
  | cons x t ih =>
    intro p fuel hs hlen
    obtain ⟨hp, hl, hs'⟩ := seg_cons_inv (a := x.1) (e := x.2) (c := t) hs
    cases fuel with
    | zero => simp at hlen
    | succ fuel =>
      subst hp
      rw [chainFrom, hl]
      show (chainFrom h fuel x.2.next).map ((x.1, x.2) :: ·) = some (x :: t)
      rw [ih hs' (by simpa using hlen)]
      rfl

theorem mem_of_getLast?_eq {α : Type} {l : List α} {a : α}
    (h : l.getLast? = some a) : a ∈ l := by
  obtain ⟨hne, hx⟩ := List.mem_getLast?_eq_getLast (Option.mem_def.mpr h)
  subst hx
  exact List.getLast_mem hne

theorem mem_of_subset_of_length {l k : List Nat} (hsub : l ⊆ k)
    (hnd : l.Nodup) (hlen : k.length ≤ l.length) : ∀ x ∈ k, x ∈ l := by
  have hperm := (hnd.subperm hsub).perm_of_length_le hlen
  exact fun x hx => hperm.mem_iff.mpr hx

theorem keys_setLastNext :
    ∀ (c : Chain) (nx : Option Nat),
      (setLastNext c nx).map Prod.fst = c.map Prod.fst := by
  intro c
  induction c with
  | nil => intro nx; rfl
  | cons x t ih =>
    intro nx
    cases t with
    | nil => rfl
    | cons y t' =>
      rw [setLastNext, List.map_cons, List.map_cons, ih nx]

theorem datas_setLastNext :
    ∀ (c : Chain) (nx : Option Nat),
      (setLastNext c nx).map (fun x => x.2.data) = c.map (fun x => x.2.data) := by
  intro c
  induction c with
  | nil => intro nx; rfl
  | cons x t ih =>
    intro nx
    cases t with
    | nil => rfl
    | cons y t' =>
      rw [setLastNext, List.map_cons, List.map_cons, ih nx]

theorem length_setLastNext (c : Chain) (nx : Option Nat) :
    (setLastNext c nx).length = c.length := by
  have := congrArg List.length (keys_setLastNext c nx)
  simpa using this

theorem seg_setLastNext {h : Heap} {nx : Option Nat} :
    ∀ {c : Chain} {p s0 : Option Nat} {ta : Nat},
      Seg h p c s0 → (c.map Prod.fst).getLast? = some ta →
      (c.map Prod.fst).Nodup →
      Seg (setNext h ta nx) p (setLastNext c nx) nx := by
  intro c
  induction c with
  | nil => intro p s0 ta _ hlast; simp at hlast
  | cons x t ih =>
    intro p s0 ta hs hlast hnd
    obtain ⟨hp, hl, hs'⟩ := seg_cons_inv (a := x.1) (e := x.2) (c := t) hs
    subst hp
    cases t with
    | nil =>
      simp only [List.map_cons, List.map_nil] at hlast
      have hta : ta = x.1 := by
        simpa using hlast.symm
      subst hta
      exact Seg.cons x.1 ⟨x.2.data, nx⟩ [] nx
        (hlookup_setNext_self hl nx) (Seg.nil nx)
    | cons y t' =>
      rw [List.map_cons, List.map_cons, List.getLast?_cons_cons] at hlast
      rw [List.map_cons] at hnd
      have hmem : ta ∈ (y :: t').map Prod.fst := mem_of_getLast?_eq hlast
      have hne : x.1 ≠ ta := fun hh =>
        (List.nodup_cons.mp hnd).1 (hh ▸ hmem)
      rw [setLastNext]
      exact Seg.cons x.1 x.2 _ nx
        (by rw [hlookup_setNext_ne hne, hl])
        (ih hs' hlast (List.nodup_cons.mp hnd).2)

/-- Package a chain into the well-formedness predicate. -/
theorem wf_of_seg {s : QState} {c : Chain}
    (hseg : Seg s.heap s.head c none)
    (he : s.entries = c.length) (hhl : s.heap.length = c.length)
    (ht : s.tail = (c.map Prod.fst).getLast?)
    (hnd : (c.map Prod.fst).Nodup)
    (hknd : (s.heap.map Prod.fst).Nodup)
    (hfa : ∀ a ∈ s.heap.map Prod.fst, a < s.fresh) : WF s :=
  ⟨c, chainFrom_of_seg hseg (le_of_eq hhl.symm),
    he, hhl, ht, hnd, hknd, hfa⟩

/-- Unpack the well-formedness predicate into a chain segment. -/
theorem wf_elim {s : QState} (h : WF s) :
    ∃ c : Chain,
      Seg s.heap s.head c none ∧
      s.entries = c.length ∧
      s.heap.length = c.length ∧
      s.tail = (c.map Prod.fst).getLast? ∧
      (c.map Prod.fst).Nodup ∧
      (s.heap.map Prod.fst).Nodup ∧
      (∀ a ∈ s.heap.map Prod.fst, a < s.fresh) := by
  obtain ⟨c, hch, he, hhl, ht, hnd, hknd, hfa⟩ := h
  exact ⟨c, seg_of_chainFrom _ _ _ hch, he, hhl, ht, hnd, hknd, hfa⟩

/-- Under well-formedness every heap key lies on the chain. -/
theorem wf_keys_covered {s : QState} {c : Chain}
    (hseg : Seg s.heap s.head c none) (hhl : s.heap.length = c.length)
    (hnd : (c.map Prod.fst).Nodup) :
    ∀ x ∈ s.heap.map Prod.fst, x ∈ c.map Prod.fst := by
  refine mem_of_subset_of_length (seg_keys_subset hseg) hnd ?_
  simp [hhl]

/-! ### Well-formedness preservation -/

theorem getLast?_cons_of_ne_nil {α : Type} (a : α) {l : List α}
    (h : l ≠ []) : (a :: l).getLast? = l.getLast? := by
  cases l with
  | nil => exact absurd rfl h
  | cons b t => exact List.getLast?_cons_cons

theorem wf_queue_new : WF queue_new :=
  ⟨[], rfl, rfl, rfl, rfl, List.nodup_nil, List.nodup_nil, by simp [queue_new]⟩

theorem queue_push_head_true (s : QState) (d : Nat) :
    queue_push_head s d true =
      (true, { heap := (s.fresh, ⟨d, s.head⟩) :: s.heap,
               fresh := s.fresh + 1, alive := s.alive,
               ref_count := s.ref_count,
               head := some s.fresh,
               tail := if s.tail = none then some s.fresh else s.tail,
               entries := s.entries + 1 }) := by
  rw [queue_push_head]
  by_cases ht : s.tail = none <;> simp [ht]

theorem wf_queue_push_head (s : QState) (d : Nat) (allocOk : Bool)
    (h : WF s) : WF (queue_push_head s d allocOk).2 := by
  cases allocOk with
  | false => simpa [queue_push_head] using h
  | true =>
    obtain ⟨c, hseg, he, hhl, ht, hnd, hknd, hfa⟩ := wf_elim h
    rw [queue_push_head_true]
    have hsub := seg_keys_subset hseg
    have hcfresh : ∀ x ∈ c.map Prod.fst, x ≠ s.fresh := by
      intro x hx hh
      have := hfa x (hsub hx)
      omega
    have hseg' : Seg ((s.fresh, ⟨d, s.head⟩) :: s.heap) s.head c none :=
      seg_frame hseg (fun x hx => by
        rw [hlookup]
        simp only [if_neg (fun hh : s.fresh = x => hcfresh x hx hh.symm)])
    refine wf_of_seg (c := (s.fresh, ⟨d, s.head⟩) :: c) ?_ ?_ ?_ ?_ ?_ ?_ ?_
    · exact Seg.cons s.fresh ⟨d, s.head⟩ c none (by rw [hlookup]; simp) hseg'
    · simpa using he
    · simpa using hhl
    · by_cases htn : s.tail = none
      · have hc : c = [] := by
          rw [htn] at ht
          have := List.getLast?_eq_none_iff.mp ht.symm
          simpa using List.map_eq_nil_iff.mp this
        subst hc
        simp [htn]
      · have hc : c ≠ [] := by
          intro hc
          subst hc
          simp at ht
          exact htn ht
        have hcm : c.map Prod.fst ≠ [] := by simpa using hc
        simp only [if_neg htn, List.map_cons,
          getLast?_cons_of_ne_nil _ hcm]
        exact ht
    · simp only [List.map_cons, List.nodup_cons]
      exact ⟨fun hm => hcfresh _ hm rfl, hnd⟩
    · simp only [List.map_cons, List.nodup_cons]
      refine ⟨fun hm => ?_, hknd⟩
      have := hfa _ hm
      omega
    · simp only [List.map_cons, List.mem_cons]
      rintro a (rfl | hm)
      · omega
      · have := hfa a hm
        omega

theorem setNext_cons_ne {x : Nat × QueueEntry} {t : Nat} (h : x.1 ≠ t)
    (hp : Heap) (nx : Option Nat) :
    setNext (x :: hp) t nx = x :: setNext hp t nx := by
  simp [setNext, h]

theorem queue_push_tail_true_none (s : QState) (d : Nat)
    (ht : s.tail = none) :
    queue_push_tail s d true =
      (true, { heap := (s.fresh, ⟨d, none⟩) :: s.heap,
               fresh := s.fresh + 1, alive := s.alive,
               ref_count := s.ref_count,
               head := if s.head = none then some s.fresh else s.head,
               tail := some s.fresh,
               entries := s.entries + 1 }) := by
  rw [queue_push_tail]
  by_cases hh : s.head = none <;> simp [ht, hh]

theorem queue_push_tail_true_some (s : QState) (d : Nat) (t : Nat)
    (ht : s.tail = some t) :
    queue_push_tail s d true =
      (true, { heap := setNext ((s.fresh, ⟨d, none⟩) :: s.heap) t (some s.fresh),
               fresh := s.fresh + 1, alive := s.alive,
               ref_count := s.ref_count,
               head := if s.head = none then some s.fresh else s.head,
               tail := some s.fresh,
               entries := s.entries + 1 }) := by
  rw [queue_push_tail]
  by_cases hh : s.head = none <;> simp [ht, hh]

theorem wf_queue_push_tail (s : QState) (d : Nat) (allocOk : Bool)
    (h : WF s) : WF (queue_push_tail s d allocOk).2 := by
  cases allocOk with
  | false => simpa [queue_push_tail] using h
  | true =>
    obtain ⟨c, hseg, he, hhl, ht, hnd, hknd, hfa⟩ := wf_elim h
    cases c with
    | nil =>
      have hheap : s.heap = [] := List.length_eq_zero.mp (by simpa using hhl)
      have hhd : s.head = none := seg_nil_inv hseg
      have htl : s.tail = none := by simpa using ht
      rw [queue_push_tail_true_none s d htl]
      refine wf_of_seg (c := [(s.fresh, ⟨d, none⟩)]) ?_ ?_ ?_ ?_ ?_ ?_ ?_
      · simp only [hhd, if_pos rfl]
        exact Seg.cons s.fresh ⟨d, none⟩ [] none
          (by rw [hlookup]; simp) (Seg.nil none)
      · simpa using he
      · simp [hheap]
      · simp
      · simp
      · simp [hheap]
      · simp [hheap]
    | cons x c' =>
      have hcne : (x :: c').map Prod.fst ≠ [] := by simp
      obtain ⟨ta, hta⟩ : ∃ ta, ((x :: c').map Prod.fst).getLast? = some ta :=
        ⟨_, List.getLast?_eq_getLast_of_ne_nil hcne⟩
      have htl : s.tail = some ta := by rw [ht, hta]
      have hsub := seg_keys_subset hseg
      have hta_mem : ta ∈ (x :: c').map Prod.fst := mem_of_getLast?_eq hta
      have hta_lt : ta < s.fresh := hfa ta (hsub hta_mem)
      have hcfresh : ∀ y ∈ (x :: c').map Prod.fst, y ≠ s.fresh := by
        intro y hy hh
        have := hfa y (hsub hy)
        omega
      have hhd : s.head = some x.1 :=
        (seg_cons_inv (a := x.1) (e := x.2) (c := c') hseg).1
      rw [queue_push_tail_true_some s d ta htl]
      have hne_ta : s.fresh ≠ ta := by omega
      rw [setNext_cons_ne hne_ta]
      set n := s.fresh with hn
      set h2 := setNext s.heap ta (some n) with hh2
      -- chain for the new state
      have hseg1 : Seg h2 s.head (setLastNext (x :: c') (some n)) (some n) :=
        seg_setLastNext hseg hta hnd
      have hseg2 : Seg ((n, ⟨d, none⟩) :: h2) s.head
          (setLastNext (x :: c') (some n)) (some n) := by
        refine seg_frame hseg1 ?_
        intro y hy
        rw [keys_setLastNext] at hy
        rw [hlookup]
        simp only [if_neg (fun hh : n = y => hcfresh y hy hh.symm)]
      have hseg3 : Seg ((n, ⟨d, none⟩) :: h2) (some n) [(n, ⟨d, none⟩)] none :=
        Seg.cons n ⟨d, none⟩ [] none (by rw [hlookup]; simp) (Seg.nil none)
      refine wf_of_seg
        (c := setLastNext (x :: c') (some n) ++ [(n, ⟨d, none⟩)]) ?_ ?_ ?_ ?_ ?_ ?_ ?_
      · show Seg _ (if s.head = none then some n else s.head) _ none
        rw [hhd, if_neg (by simp)]
        exact hhd ▸ seg_append hseg2 hseg3
      · rw [List.length_append, length_setLastNext]
        simp [he]
      · simp [hh2, length_setNext, hhl, length_setLastNext]
      · simp only [List.map_append, List.map_singleton, keys_setLastNext]
        rw [List.getLast?_concat]
      · simp only [List.map_append, keys_setLastNext]
        refine List.Nodup.append hnd (by simp) ?_
        intro y hy
        simp only [List.map_singleton, List.mem_singleton]
        exact fun hh => hcfresh y hy (by simpa using hh)
      · simp only [List.map_cons, hh2, keys_setNext, List.nodup_cons]
        refine ⟨fun hm => ?_, hknd⟩
        have := hfa _ hm
        omega
      · simp only [List.map_cons, hh2, keys_setNext, List.mem_cons]
        rintro a (rfl | hm)
        · omega
        · have := hfa a hm
          omega

theorem wf_queue_pop_head (s : QState) (h : WF s) :
    WF (queue_pop_head s).2 := by
  obtain ⟨c, hseg, he, hhl, ht, hnd, hknd, hfa⟩ := wf_elim h
  cases c with
  | nil =>
    have hhd : s.head = none := seg_nil_inv hseg
    simpa [queue_pop_head, hhd] using h
  | cons x c' =>
    obtain ⟨hhd, hl, hs'⟩ := seg_cons_inv (a := x.1) (e := x.2) (c := c') hseg
    rw [List.map_cons, List.nodup_cons] at hnd
    have hx_mem : x.1 ∈ s.heap.map Prod.fst := hlookup_mem_keys hl
    have hlen := length_herase_mem hx_mem
    rw [queue_pop_head, hhd]
    simp only [hl]
    cases hnx : x.2.next with
    | none =>
      have hc' : c' = [] := (seg_none_start (hnx ▸ hs')).1
      subst hc'
      refine wf_of_seg (c := []) (Seg.nil none) ?_ ?_ ?_ ?_ ?_ ?_
      · show s.entries - 1 = _
        rw [he]
        rfl
      · show (herase s.heap x.1).length = _
        rw [List.length_cons, List.length_nil] at hhl
        simp only [List.length_nil]
        omega
      · rfl
      · exact List.nodup_nil
      · show ((herase s.heap x.1).map Prod.fst).Nodup
        rw [keys_herase]
        exact hknd.erase x.1
      · show ∀ a ∈ (herase s.heap x.1).map Prod.fst, a < s.fresh
        intro a ha
        rw [keys_herase] at ha
        exact hfa a (List.erase_subset _ _ ha)
    | some b =>
      have hc'ne : c' ≠ [] := by
        intro hc
        subst hc
        have := seg_nil_inv (hnx ▸ hs')
        simp at this
      refine wf_of_seg (c := c') ?_ ?_ ?_ ?_ ?_ ?_ ?_
      · show Seg (herase s.heap x.1) (some b) c' none
        refine seg_frame (hnx ▸ hs') ?_
        intro y hy
        exact hlookup_herase_ne (fun hh => hnd.1 (hh ▸ hy))
      · show s.entries - 1 = _
        rw [he, List.length_cons]
        omega
      · show (herase s.heap x.1).length = _
        rw [List.length_cons] at hhl
        omega
      · show s.tail = _
        rw [ht, List.map_cons,
          getLast?_cons_of_ne_nil _ (by simpa using hc'ne)]
      · exact hnd.2
      · show ((herase s.heap x.1).map Prod.fst).Nodup
        rw [keys_herase]
        exact hknd.erase x.1
      · show ∀ a ∈ (herase s.heap x.1).map Prod.fst, a < s.fresh
        intro a ha
        rw [keys_herase] at ha
        exact hfa a (List.erase_subset _ _ ha)

/-! ### Loop unfolding lemmas -/

theorem removeLoop_none (d : Nat) (fuel : Nat) (s : QState)
    (prev : Option Nat) : removeLoop d fuel s none prev = (false, s) := by
  cases fuel <;> rfl

theorem removeLoop_succ (d f : Nat) (s : QState) (a : Nat)
    (prev : Option Nat) :
    removeLoop d (f + 1) s (some a) prev =
      match hlookup s.heap a with
      | none => (false, s)
      | some e =>
        if e.data = d then
          let s1 := match prev with
                    | some pa => { s with heap := setNext s.heap pa e.next }
                    | none => { s with head := e.next }
          let s2 := match e.next with
                    | none => { s1 with tail := prev }
                    | some _ => s1
          (true, { s2 with heap := herase s2.heap a, entries := s2.entries - 1 })
        else
          removeLoop d f s e.next (some a) := rfl

theorem removeIfLoop_none (p : Nat → Nat → Bool) (ud : Nat) (fuel : Nat)
    (s : QState) (prev : Option Nat) :
    removeIfLoop p ud fuel s none prev = (0, s) := by
  cases fuel <;> rfl

theorem removeIfLoop_succ (p : Nat → Nat → Bool) (ud f : Nat) (s : QState)
    (a : Nat) (prev : Option Nat) :
    removeIfLoop p ud (f + 1) s (some a) prev =
      match hlookup s.heap a with
      | none => (0, s)
      | some e =>
        if p e.data ud then
          let s1 := match prev with
                    | some pa => { s with heap := setNext s.heap pa e.next }
                    | none => { s with head := e.next }
          let s2 := match e.next with
                    | none => { s1 with tail := prev }
                    | some _ => s1
          (e.data, { s2 with heap := herase s2.heap a, entries := s2.entries - 1 })
        else
          removeIfLoop p ud f s e.next (some a) := rfl

theorem removeAllLoop_none (p : Nat → Nat → Bool) (ud : Nat)
    (useDestroy : Bool) (fuel : Nat) (s : QState) (prev : Option Nat) :
    removeAllLoop p ud useDestroy fuel s none prev = (0, s, []) := by
  cases fuel <;> rfl

theorem removeAllLoop_succ (p : Nat → Nat → Bool) (ud : Nat)
    (useDestroy : Bool) (f : Nat) (s : QState) (a : Nat)
    (prev : Option Nat) :
    removeAllLoop p ud useDestroy (f + 1) s (some a) prev =
      match hlookup s.heap a with
      | none => (0, s, [])
      | some e =>
        if p e.data ud then
          let s1 := match prev with
                    | some pa => { s with heap := setNext s.heap pa e.next }
                    | none => { s with head := e.next }
          let s2 := match e.next with
                    | none => { s1 with tail := prev }
                    | some _ => s1
          let s3 := { s2 with heap := herase s2.heap a }
          let r := removeAllLoop p ud useDestroy f s3 e.next prev
          (r.1 + 1, r.2.1, (if useDestroy then [e.data] else []) ++ r.2.2)
        else
          removeAllLoop p ud useDestroy f s e.next (some a) := rfl

theorem destroyLoop_none (useDestroy : Bool) (fuel : Nat) (s : QState) :
    destroyLoop useDestroy fuel s none = (s, [], 0) := by
  cases fuel <;> rfl

theorem destroyLoop_succ (useDestroy : Bool) (f : Nat) (s : QState)
    (a : Nat) :
    destroyLoop useDestroy (f + 1) s (some a) =
      match hlookup s.heap a with
      | none => (s, [], 0)
      | some e =>
        let r := destroyLoop useDestroy f { s with heap := herase s.heap a } e.next
        (r.1, (if useDestroy then [e.data] else []) ++ r.2.1, r.2.2 + 1) := rfl

theorem findEntryLoop_none (target : Option Nat) (fuel : Nat) (h : Heap) :
    findEntryLoop target fuel h none = false := by
  cases fuel <;> rfl

theorem findEntryLoop_succ (target : Option Nat) (f : Nat) (h : Heap)
    (a : Nat) :
    findEntryLoop target (f + 1) h (some a) =
      (if some a = target then true
       else
        match hlookup h a with
        | none => false
        | some e => findEntryLoop target f h e.next) := rfl

theorem findLoop_none (p : Nat → Nat → Bool) (md : Nat) (fuel : Nat)
    (h : Heap) : findLoop p md fuel h none = 0 := by
  cases fuel <;> rfl

theorem findLoop_succ (p : Nat → Nat → Bool) (md f : Nat) (h : Heap)
    (a : Nat) :
    findLoop p md (f + 1) h (some a) =
      match hlookup h a with
      | none => 0
      | some e => if p e.data md then e.data else findLoop p md f h e.next := rfl

theorem foreachLoop_none (f : QState → Nat → QState) (fuel : Nat)
    (s : QState) : foreachLoop f fuel s none = (s, []) := by
  cases fuel <;> rfl

theorem foreachLoop_succ (f : QState → Nat → QState) (fl : Nat) (s : QState)
    (a : Nat) :
    foreachLoop f (fl + 1) s (some a) =
      (if s.ref_count ≤ 1 then (s, [])
       else
        match hlookup s.heap a with
        | none => (s, [])
        | some e =>
          let s2 := f s e.data
          if queue_find_entry s2 e.next then
            let r := foreachLoop f fl s2 e.next
            (r.1, e.data :: r.2)
          else (s2, [e.data])) := rfl

theorem foreachLoop_stop (f : QState → Nat → QState) (fuel : Nat)
    (s : QState) (a : Nat) (h : s.ref_count ≤ 1) :
    foreachLoop f fuel s (some a) = (s, []) := by
  cases fuel with
  | zero => rw [foreachLoop]; simp [h]
  | succ fl => rw [foreachLoop_succ, if_pos h]

/-! ### Removal scan correctness -/

theorem getLast?_append_ne_nil {α : Type} (l₁ : List α) {l₂ : List α}
    (h : l₂ ≠ []) : (l₁ ++ l₂).getLast? = l₂.getLast? := by
  induction l₁ with
  | nil => rfl
  | cons x t ih =>
    rw [List.cons_append, getLast?_cons_of_ne_nil x (by simp [h]), ih]

theorem removeLoop_spec (d : Nat) :
    ∀ (c : Chain) (fuel : Nat) (preC : Chain) (s : QState)
      (cur prev : Option Nat),
      Seg s.heap s.head preC cur →
      Seg s.heap cur c none →
      prev = (preC.map Prod.fst).getLast? →
      ((preC ++ c).map Prod.fst).Nodup →
      (s.heap.map Prod.fst).Nodup →
      s.heap.length = (preC ++ c).length →
      s.entries = (preC ++ c).length →
      s.tail = ((preC ++ c).map Prod.fst).getLast? →
      (∀ a ∈ s.heap.map Prod.fst, a < s.fresh) →
      c.length ≤ fuel →
      removeLoop d fuel s cur prev = (false, s) ∨
        ∃ s', removeLoop d fuel s cur prev = (true, s') ∧ WF s' ∧
          s'.fresh = s.fresh ∧ s'.ref_count = s.ref_count ∧
          s'.alive = s.alive ∧ s'.entries + 1 = s.entries := by
  intro c
  induction c with
  | nil =>
    intro fuel preC s cur prev hpre hc hprev hnd hknd hlen he htail hfa hfuel
    have hcur : cur = none := seg_nil_inv hc
    subst hcur
    exact Or.inl (removeLoop_none d fuel s prev)
  | cons x c2 ih =>
    intro fuel preC s cur prev hpre hc hprev hnd hknd hlen he htail hfa hfuel
    obtain ⟨hcur, hl, hs2⟩ := seg_cons_inv (a := x.1) (e := x.2) (c := c2) hc
    subst hcur
    cases fuel with
    | zero => simp at hfuel
    | succ f =>
      rw [removeLoop_succ]
      simp only [hl]
      -- nodup decomposition
      rw [List.map_append, List.map_cons, List.nodup_append] at hnd
      obtain ⟨hndP, hndC, hdisj⟩ := hnd
      have hanotP : x.1 ∉ preC.map Prod.fst :=
        fun hm => hdisj hm (List.mem_cons_self _ _)
      have hanotC : x.1 ∉ c2.map Prod.fst := (List.nodup_cons.mp hndC).1
      have hndC2 : (c2.map Prod.fst).Nodup := (List.nodup_cons.mp hndC).2
      have hdisjPC : (preC.map Prod.fst).Disjoint (c2.map Prod.fst) :=
        fun y hy hy2 => hdisj hy (List.mem_cons_of_mem _ hy2)
      rw [List.length_append, List.length_cons] at hlen he
      by_cases hd : x.2.data = d
      · -- first match found here: the node is unlinked and freed
        rw [if_pos hd]
        refine Or.inr ?_
        by_cases hpc : preC = []
        · subst hpc
          have hprevn : prev = none := by simpa using hprev
          subst hprevn
          simp only [List.length_nil, Nat.zero_add] at hlen he
          have hlenE := length_herase_mem (hlookup_mem_keys hl)
          have hseg2' : Seg (herase s.heap x.1) x.2.next c2 none :=
            seg_frame hs2 (fun y hy =>
              hlookup_herase_ne (fun hh => hanotC (hh ▸ hy)))
          cases hnx : x.2.next with
          | none =>
            rw [hnx] at hseg2'
            have hc2 : c2 = [] := (seg_none_start hseg2').1
            subst hc2
            refine ⟨{ s with heap := herase s.heap x.1, head := none, tail := none, entries := s.entries - 1 }, rfl, ?_, rfl, rfl, rfl, by show s.entries - 1 + 1 = s.entries; omega⟩
            refine wf_of_seg (c := []) (Seg.nil none)
              (by show s.entries - 1 = List.length ([] : Chain); simp only [List.length_nil] at he ⊢; omega)
              (by show (herase s.heap x.1).length = List.length ([] : Chain); simp only [List.length_nil] at hlen hlenE ⊢; omega)
              rfl List.nodup_nil ?_ ?_
            · show ((herase s.heap x.1).map Prod.fst).Nodup
              rw [keys_herase]
              exact hknd.erase x.1
            · show ∀ a ∈ (herase s.heap x.1).map Prod.fst, a < s.fresh
              intro y hy
              rw [keys_herase] at hy
              exact hfa y (List.erase_subset _ _ hy)
          | some b =>
            rw [hnx] at hseg2'
            have hc2ne : c2 ≠ [] := by
              intro hcc
              subst hcc
              have := seg_nil_inv hseg2'
              simp at this
            refine ⟨{ s with heap := herase s.heap x.1, head := some b, entries := s.entries - 1 }, rfl, ?_, rfl, rfl, rfl, by show s.entries - 1 + 1 = s.entries; omega⟩
            refine wf_of_seg (c := c2) hseg2'
              (by show s.entries - 1 = List.length c2; omega)
              (by show (herase s.heap x.1).length = List.length c2; omega)
              ?_ hndC2 ?_ ?_
            · show s.tail = _
              rw [htail]
              simp only [List.nil_append, List.map_cons]
              exact getLast?_cons_of_ne_nil _ (by simpa using hc2ne)
            · show ((herase s.heap x.1).map Prod.fst).Nodup
              rw [keys_herase]
              exact hknd.erase x.1
            · show ∀ a ∈ (herase s.heap x.1).map Prod.fst, a < s.fresh
              intro y hy
              rw [keys_herase] at hy
              exact hfa y (List.erase_subset _ _ hy)
        · have hpne : preC.map Prod.fst ≠ [] := by simpa using hpc
          obtain ⟨pa, hpa⟩ : ∃ pa, (preC.map Prod.fst).getLast? = some pa :=
            ⟨_, List.getLast?_eq_getLast_of_ne_nil hpne⟩
          have hprevs : prev = some pa := by rw [hprev, hpa]
          subst hprevs
          have hpa_mem : pa ∈ preC.map Prod.fst := mem_of_getLast?_eq hpa
          have hpa_ne_a : pa ≠ x.1 :=
            fun hh => hdisj (hh ▸ hpa_mem) (List.mem_cons_self _ _)
          have hpa_notC : pa ∉ c2.map Prod.fst := hdisjPC hpa_mem
          have hx_mem : x.1 ∈ (setNext s.heap pa x.2.next).map Prod.fst := by
            rw [keys_setNext]
            exact hlookup_mem_keys hl
          have hlenE := length_herase_mem hx_mem
          rw [length_setNext] at hlenE
          -- the relinked prefix chain
          have hseg1 : Seg (setNext s.heap pa x.2.next) s.head
              (setLastNext preC x.2.next) x.2.next :=
            seg_setLastNext hpre hpa hndP
          have hseg1' : Seg (herase (setNext s.heap pa x.2.next) x.1) s.head
              (setLastNext preC x.2.next) x.2.next :=
            seg_frame hseg1 (fun y hy => by
              rw [keys_setLastNext] at hy
              exact hlookup_herase_ne (fun hh => hanotP (hh ▸ hy)))
          -- the suffix chain is untouched
          have hseg2' : Seg (herase (setNext s.heap pa x.2.next) x.1) x.2.next
              c2 none := by
            refine seg_frame hs2 (fun y hy => ?_)
            have hy1 : y ≠ x.1 := fun hh => hanotC (hh ▸ hy)
            have hy2 : y ≠ pa := fun hh => hpa_notC (hh ▸ hy)
            rw [hlookup_herase_ne hy1, hlookup_setNext_ne hy2]
          have hkeys3 : (herase (setNext s.heap pa x.2.next) x.1).map Prod.fst
              = (s.heap.map Prod.fst).erase x.1 := by
            rw [keys_herase, keys_setNext]
          have hndK : ((herase (setNext s.heap pa x.2.next) x.1).map
              Prod.fst).Nodup := by
            rw [hkeys3]
            exact hknd.erase x.1
          have hfaK : ∀ a ∈ (herase (setNext s.heap pa x.2.next) x.1).map
              Prod.fst, a < s.fresh := by
            intro y hy
            rw [hkeys3] at hy
            exact hfa y (List.erase_subset _ _ hy)
          have hlen3 : (herase (setNext s.heap pa x.2.next) x.1).length =
              (setLastNext preC x.2.next ++ c2).length := by
            rw [List.length_append, length_setLastNext]
            omega
          have hent3 : s.entries - 1 = (setLastNext preC x.2.next ++ c2).length := by
            rw [List.length_append, length_setLastNext]
            omega
          cases hnx : x.2.next with
          | none =>
            rw [hnx] at hseg1' hseg2' hlen3 hent3
            have hc2 : c2 = [] := (seg_none_start hseg2').1
            subst hc2
            refine ⟨{ s with heap := herase (setNext s.heap pa none) x.1, tail := some pa, entries := s.entries - 1 }, rfl, ?_, rfl, rfl, rfl, by show s.entries - 1 + 1 = s.entries; omega⟩
            refine wf_of_seg (c := setLastNext preC none ++ [])
              (seg_append hseg1' (Seg.nil none)) hent3 hlen3 ?_
              ?_ (by rw [hnx] at hndK; exact hndK) (by rw [hnx] at hfaK; exact hfaK)
            · show some pa = _
              rw [List.append_nil, keys_setLastNext, hpa]
            · rw [List.append_nil, keys_setLastNext]
              exact hndP
          | some b =>
            rw [hnx] at hseg1' hseg2' hlen3 hent3
            have hc2ne : c2 ≠ [] := by
              intro hcc
              subst hcc
              have := seg_nil_inv hseg2'
              simp at this
            refine ⟨{ s with heap := herase (setNext s.heap pa (some b)) x.1, entries := s.entries - 1 }, rfl, ?_, rfl, rfl, rfl, by show s.entries - 1 + 1 = s.entries; omega⟩
            refine wf_of_seg (c := setLastNext preC (some b) ++ c2)
              (seg_append hseg1' hseg2') hent3 hlen3 ?_ ?_
              (by rw [hnx] at hndK; exact hndK) (by rw [hnx] at hfaK; exact hfaK)
            · show s.tail = _
              rw [htail, List.map_append, List.map_cons, List.map_append,
                keys_setLastNext,
                @getLast?_append_ne_nil Nat _ (x.1 :: c2.map Prod.fst) (by simp),
                getLast?_append_ne_nil _ (by simpa using hc2ne),
                getLast?_cons_of_ne_nil _ (by simpa using hc2ne)]
            · rw [List.map_append, keys_setLastNext]
              exact List.Nodup.append hndP hndC2 hdisjPC
      · -- no match here: continue the scan
        rw [if_neg hd]
        have hpre' : Seg s.heap s.head (preC ++ [x]) x.2.next :=
          seg_append hpre (Seg.cons x.1 x.2 [] x.2.next hl (Seg.nil x.2.next))
        have hassoc : preC ++ [x] ++ c2 = preC ++ x :: c2 := by
          rw [List.append_assoc, List.singleton_append]
        refine (ih f (preC ++ [x]) s x.2.next (some x.1) hpre' hs2 ?_ ?_ hknd
          ?_ ?_ ?_ hfa (by simpa using hfuel)).imp id id
        · rw [List.map_append, List.map_singleton, List.getLast?_concat]
        · rw [hassoc, List.map_append, List.map_cons, List.nodup_append]
          exact ⟨hndP, hndC, hdisj⟩
        · rw [hassoc, List.length_append, List.length_cons]
          exact hlen
        · rw [hassoc, List.length_append, List.length_cons]
          exact he
        · rw [hassoc]
          exact htail

theorem length_filter_split {α : Type} (m : α → Bool) (l : List α) :
    (l.filter m).length + (l.filter (fun y => !m y)).length = l.length := by
  induction l with
  | nil => rfl
  | cons x t ih =>
    by_cases hm : m x = true <;>
      simp [List.filter_cons, hm, ← ih] <;> omega

theorem destroyLoop_spec (useD : Bool) :
    ∀ (c : Chain) (fuel : Nat) (s : QState) (cur : Option Nat),
      Seg s.heap cur c none →
      (c.map Prod.fst).Nodup →
      (s.heap.map Prod.fst).Nodup →
      c.length ≤ fuel →
      ∃ s', destroyLoop useD fuel s cur =
          (s', (if useD then c.map (fun y => y.2.data) else []), c.length) ∧
        s'.heap.length + c.length = s.heap.length ∧
        (∀ y, y ∉ c.map Prod.fst → hlookup s'.heap y = hlookup s.heap y) ∧
        (s'.heap.map Prod.fst).Nodup ∧
        (∀ a ∈ s'.heap.map Prod.fst, a ∈ s.heap.map Prod.fst) ∧
        s'.fresh = s.fresh ∧ s'.alive = s.alive ∧
        s'.ref_count = s.ref_count ∧ s'.head = s.head ∧
        s'.tail = s.tail ∧ s'.entries = s.entries := by
  intro c
  induction c with
  | nil =>
    intro fuel s cur hc hnd hknd hfuel
    have hcur : cur = none := seg_nil_inv hc
    subst hcur
    exact ⟨s, by cases useD <;> simp [destroyLoop_none], by simp, by simp,
      hknd, fun a ha => ha, rfl, rfl, rfl, rfl, rfl, rfl⟩
  | cons x c2 ih =>
    intro fuel s cur hc hnd hknd hfuel
    obtain ⟨hcur, hl, hs2⟩ := seg_cons_inv (a := x.1) (e := x.2) (c := c2) hc
    subst hcur
    cases fuel with
    | zero => simp at hfuel
    | succ f =>
      rw [destroyLoop_succ]
      simp only [hl]
      rw [List.map_cons, List.nodup_cons] at hnd
      have hx_mem : x.1 ∈ s.heap.map Prod.fst := hlookup_mem_keys hl
      have hlenE := length_herase_mem hx_mem
      have hs2' : Seg (herase s.heap x.1) x.2.next c2 none :=
        seg_frame hs2 (fun y hy =>
          hlookup_herase_ne (fun hh => hnd.1 (hh ▸ hy)))
      have hknd' : ((herase s.heap x.1).map Prod.fst).Nodup := by
        rw [keys_herase]
        exact hknd.erase x.1
      obtain ⟨s', heq, hlen', hfr, hknd'', hsub, h1, h2, h3, h4, h5, h6⟩ :=
        ih f { s with heap := herase s.heap x.1 } x.2.next hs2' hnd.2 hknd'
          (by simpa using hfuel)
      have hlen2 : s'.heap.length + c2.length = (herase s.heap x.1).length :=
        hlen'
      refine ⟨s', ?_, by simp only [List.length_cons]; omega, ?_, hknd'', ?_,
        h1, h2, h3, h4, h5, h6⟩
      · rw [heq]
        cases useD <;> simp
      · intro y hy
        rw [List.map_cons, List.mem_cons] at hy
        push_neg at hy
        rw [hfr y (fun hm => hy.2 hm), hlookup_herase_ne hy.1]
      · intro a ha
        have h' : a ∈ (herase s.heap x.1).map Prod.fst := hsub a ha
        rw [keys_herase] at h'
        exact List.erase_subset _ _ h'

theorem removeAllLoop_spec (p : Nat → Nat → Bool) (ud : Nat) (useD : Bool) :
    ∀ (c : Chain) (fuel : Nat) (preC : Chain) (s : QState)
      (cur prev : Option Nat),
      Seg s.heap s.head preC cur →
      Seg s.heap cur c none →
      prev = (preC.map Prod.fst).getLast? →
      ((preC ++ c).map Prod.fst).Nodup →
      (s.heap.map Prod.fst).Nodup →
      s.heap.length = (preC ++ c).length →
      s.tail = ((preC ++ c).map Prod.fst).getLast? →
      c.length ≤ fuel →
      ∃ s' chain,
        removeAllLoop p ud useD fuel s cur prev =
          ((c.filter (fun y => p y.2.data ud)).length, s',
            if useD then
              (c.filter (fun y => p y.2.data ud)).map (fun y => y.2.data)
            else []) ∧
        Seg s'.heap s'.head chain none ∧
        chain.map Prod.fst =
          (preC ++ c.filter (fun y => !p y.2.data ud)).map Prod.fst ∧
        chain.map (fun y => y.2.data) =
          (preC ++ c.filter (fun y => !p y.2.data ud)).map (fun y => y.2.data) ∧
        s'.heap.length = chain.length ∧
        s'.tail = (chain.map Prod.fst).getLast? ∧
        (s'.heap.map Prod.fst).Nodup ∧
        (∀ a ∈ s'.heap.map Prod.fst, a ∈ s.heap.map Prod.fst) ∧
        s'.entries = s.entries ∧ s'.fresh = s.fresh ∧
        s'.ref_count = s.ref_count ∧ s'.alive = s.alive := by
  intro c
  induction c with
  | nil =>
    intro fuel preC s cur prev hpre hc hprev hnd hknd hlen htail hfuel
    have hcur : cur = none := seg_nil_inv hc
    subst hcur
    refine ⟨s, preC, by cases useD <;> simp [removeAllLoop_none], hpre,
      by simp, by simp, by simpa using hlen, by simpa using htail, hknd,
      fun a ha => ha, rfl, rfl, rfl, rfl⟩
  | cons x c2 ih =>
    intro fuel preC s cur prev hpre hc hprev hnd hknd hlen htail hfuel
    obtain ⟨hcur, hl, hs2⟩ := seg_cons_inv (a := x.1) (e := x.2) (c := c2) hc
    subst hcur
    cases fuel with
    | zero => simp at hfuel
    | succ f =>
      rw [removeAllLoop_succ]
      simp only [hl]
      rw [List.map_append, List.map_cons, List.nodup_append] at hnd
      obtain ⟨hndP, hndC, hdisj⟩ := hnd
      have hanotP : x.1 ∉ preC.map Prod.fst :=
        fun hm => hdisj hm (List.mem_cons_self _ _)
      have hanotC : x.1 ∉ c2.map Prod.fst := (List.nodup_cons.mp hndC).1
      have hndC2 : (c2.map Prod.fst).Nodup := (List.nodup_cons.mp hndC).2
      have hdisjPC : (preC.map Prod.fst).Disjoint (c2.map Prod.fst) :=
        fun y hy hy2 => hdisj hy (List.mem_cons_of_mem _ hy2)
      rw [List.length_append, List.length_cons] at hlen
      by_cases hm : p x.2.data ud = true
      · -- the node matches: it is unlinked, destroyed and freed
        rw [if_pos hm]
        have hfc : (x :: c2).filter (fun y => p y.2.data ud) =
            x :: c2.filter (fun y => p y.2.data ud) := by
          simp [List.filter_cons, hm]
        have hfn : (x :: c2).filter (fun y => !p y.2.data ud) =
            c2.filter (fun y => !p y.2.data ud) := by
          simp [List.filter_cons, hm]
        by_cases hpc : preC = []
        · subst hpc
          have hprevn : prev = none := by simpa using hprev
          subst hprevn
          simp only [List.length_nil, Nat.zero_add] at hlen
          have hlenE := length_herase_mem (hlookup_mem_keys hl)
          have hseg2' : Seg (herase s.heap x.1) x.2.next c2 none :=
            seg_frame hs2 (fun y hy =>
              hlookup_herase_ne (fun hh => hanotC (hh ▸ hy)))
          have hkndE : ((herase s.heap x.1).map Prod.fst).Nodup := by
            rw [keys_herase]
            exact hknd.erase x.1
          have hsubE : ∀ a ∈ (herase s.heap x.1).map Prod.fst,
              a ∈ s.heap.map Prod.fst := by
            intro a ha
            rw [keys_herase] at ha
            exact List.erase_subset _ _ ha
          cases hnx : x.2.next with
          | none =>
            rw [hnx] at hseg2'
            have hc2 : c2 = [] := (seg_none_start hseg2').1
            subst hc2
            rw [removeAllLoop_none]
            refine ⟨{ s with heap := herase s.heap x.1, head := none, tail := none }, [], ?_, Seg.nil none, by simp [hfn], by simp [hfn],
              ?_, rfl, hkndE, hsubE, rfl, rfl, rfl, rfl⟩
            · rw [hfc]
              cases useD <;> simp
            · show (herase s.heap x.1).length = _
              simp only [List.length_nil] at hlen ⊢
              omega
          | some b =>
            rw [hnx] at hseg2'
            have hc2ne : c2 ≠ [] := by
              intro hcc
              subst hcc
              have := seg_nil_inv hseg2'
              simp at this
            obtain ⟨s', chain, heq, hch, hcf, hcd, hlen', htl', hknd', hsub',
                he', hf', hr', ha'⟩ :=
              ih f [] { s with heap := herase s.heap x.1, head := some b }
                (some b) none (Seg.nil (some b)) hseg2' rfl
                (by simpa using hndC2) hkndE
                (by show (herase s.heap x.1).length = _; simp; omega)
                (by show s.tail = _
                    rw [htail]
                    simp only [List.nil_append, List.map_cons]
                    exact getLast?_cons_of_ne_nil _ (by simpa using hc2ne))
                (by simpa using hfuel)
            rw [heq]
            refine ⟨s', chain, ?_, hch, by rw [hcf, hfn], by rw [hcd, hfn],
              hlen', htl', hknd', fun a ha => hsubE a (hsub' a ha),
              he', hf', hr', ha'⟩
            rw [hfc]
            cases useD <;> simp
        · have hpne : preC.map Prod.fst ≠ [] := by simpa using hpc
          obtain ⟨pa, hpa⟩ : ∃ pa, (preC.map Prod.fst).getLast? = some pa :=
            ⟨_, List.getLast?_eq_getLast_of_ne_nil hpne⟩
          have hprevs : prev = some pa := by rw [hprev, hpa]
          subst hprevs
          have hpa_mem : pa ∈ preC.map Prod.fst := mem_of_getLast?_eq hpa
          have hpa_ne_a : pa ≠ x.1 :=
            fun hh => hdisj (hh ▸ hpa_mem) (List.mem_cons_self _ _)
          have hpa_notC : pa ∉ c2.map Prod.fst := hdisjPC hpa_mem
          have hx_mem : x.1 ∈ (setNext s.heap pa x.2.next).map Prod.fst := by
            rw [keys_setNext]
            exact hlookup_mem_keys hl
          have hlenE := length_herase_mem hx_mem
          rw [length_setNext] at hlenE
          have hseg1 : Seg (setNext s.heap pa x.2.next) s.head
              (setLastNext preC x.2.next) x.2.next :=
            seg_setLastNext hpre hpa hndP
          have hseg1' : Seg (herase (setNext s.heap pa x.2.next) x.1) s.head
              (setLastNext preC x.2.next) x.2.next :=
            seg_frame hseg1 (fun y hy => by
              rw [keys_setLastNext] at hy
              exact hlookup_herase_ne (fun hh => hanotP (hh ▸ hy)))
          have hseg2' : Seg (herase (setNext s.heap pa x.2.next) x.1) x.2.next
              c2 none := by
            refine seg_frame hs2 (fun y hy => ?_)
            have hy1 : y ≠ x.1 := fun hh => hanotC (hh ▸ hy)
            have hy2 : y ≠ pa := fun hh => hpa_notC (hh ▸ hy)
            rw [hlookup_herase_ne hy1, hlookup_setNext_ne hy2]
          have hkeys3 : (herase (setNext s.heap pa x.2.next) x.1).map Prod.fst
              = (s.heap.map Prod.fst).erase x.1 := by
            rw [keys_herase, keys_setNext]
          have hndK : ((herase (setNext s.heap pa x.2.next) x.1).map
              Prod.fst).Nodup := by
            rw [hkeys3]
            exact hknd.erase x.1
          have hsubK : ∀ a ∈ (herase (setNext s.heap pa x.2.next) x.1).map
              Prod.fst, a ∈ s.heap.map Prod.fst := by
            intro a ha
            rw [hkeys3] at ha
            exact List.erase_subset _ _ ha
          have hlen3 : (herase (setNext s.heap pa x.2.next) x.1).length =
              preC.length + c2.length := by
            omega
          cases hnx : x.2.next with
          | none =>
            rw [hnx] at hseg1' hseg2' hkeys3 hndK hsubK hlen3
            have hc2 : c2 = [] := (seg_none_start hseg2').1
            subst hc2
            rw [removeAllLoop_none]
            refine ⟨{ s with heap := herase (setNext s.heap pa none) x.1, tail := some pa }, setLastNext preC none, ?_, hseg1', ?_, ?_, ?_, ?_,
              hndK, hsubK, rfl, rfl, rfl, rfl⟩
            · rw [hfc]
              cases useD <;> simp
            · rw [keys_setLastNext, hfn]
              simp
            · rw [datas_setLastNext, hfn]
              simp
            · show (herase (setNext s.heap pa none) x.1).length = _
              rw [length_setLastNext]
              simp only [List.length_nil] at hlen3 ⊢
              omega
            · show some pa = _
              rw [keys_setLastNext, hpa]
          | some b =>
            rw [hnx] at hseg1' hseg2' hkeys3 hndK hsubK hlen3
            have hc2ne : c2 ≠ [] := by
              intro hcc
              subst hcc
              have := seg_nil_inv hseg2'
              simp at this
            obtain ⟨s', chain, heq, hch, hcf, hcd, hlen', htl', hknd', hsub',
                he', hf', hr', ha'⟩ :=
              ih f (setLastNext preC (some b))
                { s with heap := herase (setNext s.heap pa (some b)) x.1 }
                (some b) (some pa) hseg1' hseg2'
                (by rw [keys_setLastNext, hpa])
                (by rw [List.map_append, keys_setLastNext]
                    exact List.Nodup.append hndP hndC2 hdisjPC)
                hndK
                (by show (herase (setNext s.heap pa (some b)) x.1).length = _
                    rw [List.length_append, length_setLastNext]
                    omega)
                (by show s.tail = _
                    rw [htail, List.map_append, List.map_cons, List.map_append,
                      keys_setLastNext,
                      @getLast?_append_ne_nil Nat _
                        (x.1 :: c2.map Prod.fst) (by simp),
                      getLast?_append_ne_nil _ (by simpa using hc2ne),
                      getLast?_cons_of_ne_nil _ (by simpa using hc2ne)])
                (by simpa using hfuel)
            rw [heq]
            refine ⟨s', chain, ?_, hch, ?_, ?_, hlen', htl', hknd',
              fun a ha => hsubK a (hsub' a ha), he', hf', hr', ha'⟩
            · rw [hfc]
              cases useD <;> simp
            · rw [hcf, hfn, List.map_append, List.map_append, keys_setLastNext]
            · rw [hcd, hfn, List.map_append, List.map_append, datas_setLastNext]
      · -- the node is kept: the scan moves on with prev = this node
        rw [if_neg hm]
        have hmf : p x.2.data ud = false := by
          simpa using hm
        have hfc : (x :: c2).filter (fun y => p y.2.data ud) =
            c2.filter (fun y => p y.2.data ud) := by
          simp [List.filter_cons, hmf]
        have hfn : (x :: c2).filter (fun y => !p y.2.data ud) =
            x :: c2.filter (fun y => !p y.2.data ud) := by
          simp [List.filter_cons, hmf]
        have hpre' : Seg s.heap s.head (preC ++ [x]) x.2.next :=
          seg_append hpre (Seg.cons x.1 x.2 [] x.2.next hl (Seg.nil x.2.next))
        have hassoc : preC ++ [x] ++ c2 = preC ++ x :: c2 := by
          rw [List.append_assoc, List.singleton_append]
        obtain ⟨s', chain, heq, hch, hcf, hcd, hlen', htl', hknd', hsub',
            he', hf', hr', ha'⟩ :=
          ih f (preC ++ [x]) s x.2.next (some x.1) hpre' hs2
            (by rw [List.map_append, List.map_singleton, List.getLast?_concat])
            (by rw [hassoc, List.map_append, List.map_cons, List.nodup_append]
                exact ⟨hndP, hndC, hdisj⟩)
            hknd
            (by rw [hassoc, List.length_append, List.length_cons]; omega)
            (by rw [hassoc]; exact htail)
            (by simpa using hfuel)
        rw [heq]
        refine ⟨s', chain, by rw [hfc], hch, ?_, ?_, hlen', htl', hknd',
          hsub', he', hf', hr', ha'⟩
        · rw [hcf, hfn, List.append_assoc, List.singleton_append]
        · rw [hcd, hfn, List.append_assoc, List.singleton_append]

theorem removeIfLoop_spec (p : Nat → Nat → Bool) (ud : Nat) :
    ∀ (c : Chain) (fuel : Nat) (preC : Chain) (s : QState)
      (cur prev : Option Nat),
      Seg s.heap s.head preC cur →
      Seg s.heap cur c none →
      prev = (preC.map Prod.fst).getLast? →
      ((preC ++ c).map Prod.fst).Nodup →
      (s.heap.map Prod.fst).Nodup →
      s.heap.length = (preC ++ c).length →
      s.entries = (preC ++ c).length →
      s.tail = ((preC ++ c).map Prod.fst).getLast? →
      (∀ a ∈ s.heap.map Prod.fst, a < s.fresh) →
      c.length ≤ fuel →
      removeIfLoop p ud fuel s cur prev = (0, s) ∨
        ∃ v s', removeIfLoop p ud fuel s cur prev = (v, s') ∧ WF s' ∧
          s'.entries + 1 = s.entries := by
  intro c
  induction c with
  | nil =>
    intro fuel preC s cur prev hpre hc hprev hnd hknd hlen he htail hfa hfuel
    have hcur : cur = none := seg_nil_inv hc
    subst hcur
    exact Or.inl (removeIfLoop_none p ud fuel s prev)
  | cons x c2 ih =>
    intro fuel preC s cur prev hpre hc hprev hnd hknd hlen he htail hfa hfuel
    obtain ⟨hcur, hl, hs2⟩ := seg_cons_inv (a := x.1) (e := x.2) (c := c2) hc
    subst hcur
    cases fuel with
    | zero => simp at hfuel
    | succ f =>
      rw [removeIfLoop_succ]
      simp only [hl]
      -- nodup decomposition
      rw [List.map_append, List.map_cons, List.nodup_append] at hnd
      obtain ⟨hndP, hndC, hdisj⟩ := hnd
      have hanotP : x.1 ∉ preC.map Prod.fst :=
        fun hm => hdisj hm (List.mem_cons_self _ _)
      have hanotC : x.1 ∉ c2.map Prod.fst := (List.nodup_cons.mp hndC).1
      have hndC2 : (c2.map Prod.fst).Nodup := (List.nodup_cons.mp hndC).2
      have hdisjPC : (preC.map Prod.fst).Disjoint (c2.map Prod.fst) :=
        fun y hy hy2 => hdisj hy (List.mem_cons_of_mem _ hy2)
      rw [List.length_append, List.length_cons] at hlen he
      by_cases hd : p x.2.data ud = true
      · -- first match found here: the node is unlinked and freed
        rw [if_pos hd]
        refine Or.inr ?_
        by_cases hpc : preC = []
        · subst hpc
          have hprevn : prev = none := by simpa using hprev
          subst hprevn
          simp only [List.length_nil, Nat.zero_add] at hlen he
          have hlenE := length_herase_mem (hlookup_mem_keys hl)
          have hseg2' : Seg (herase s.heap x.1) x.2.next c2 none :=
            seg_frame hs2 (fun y hy =>
              hlookup_herase_ne (fun hh => hanotC (hh ▸ hy)))
          cases hnx : x.2.next with
          | none =>
            rw [hnx] at hseg2'
            have hc2 : c2 = [] := (seg_none_start hseg2').1
            subst hc2
            refine ⟨x.2.data, { s with heap := herase s.heap x.1, head := none, tail := none, entries := s.entries - 1 }, rfl, ?_, by show s.entries - 1 + 1 = s.entries; omega⟩
            refine wf_of_seg (c := []) (Seg.nil none)
              (by show s.entries - 1 = List.length ([] : Chain); simp only [List.length_nil] at he ⊢; omega)
              (by show (herase s.heap x.1).length = List.length ([] : Chain); simp only [List.length_nil] at hlen hlenE ⊢; omega)
              rfl List.nodup_nil ?_ ?_
            · show ((herase s.heap x.1).map Prod.fst).Nodup
              rw [keys_herase]
              exact hknd.erase x.1
            · show ∀ a ∈ (herase s.heap x.1).map Prod.fst, a < s.fresh
              intro y hy
              rw [keys_herase] at hy
              exact hfa y (List.erase_subset _ _ hy)
          | some b =>
            rw [hnx] at hseg2'
            have hc2ne : c2 ≠ [] := by
              intro hcc
              subst hcc
              have := seg_nil_inv hseg2'
              simp at this
            refine ⟨x.2.data, { s with heap := herase s.heap x.1, head := some b, entries := s.entries - 1 }, rfl, ?_, by show s.entries - 1 + 1 = s.entries; omega⟩
            refine wf_of_seg (c := c2) hseg2'
              (by show s.entries - 1 = List.length c2; omega)
              (by show (herase s.heap x.1).length = List.length c2; omega)
              ?_ hndC2 ?_ ?_
            · show s.tail = _
              rw [htail]
              simp only [List.nil_append, List.map_cons]
              exact getLast?_cons_of_ne_nil _ (by simpa using hc2ne)
            · show ((herase s.heap x.1).map Prod.fst).Nodup
              rw [keys_herase]
              exact hknd.erase x.1
            · show ∀ a ∈ (herase s.heap x.1).map Prod.fst, a < s.fresh
              intro y hy
              rw [keys_herase] at hy
              exact hfa y (List.erase_subset _ _ hy)
        · have hpne : preC.map Prod.fst ≠ [] := by simpa using hpc
          obtain ⟨pa, hpa⟩ : ∃ pa, (preC.map Prod.fst).getLast? = some pa :=
            ⟨_, List.getLast?_eq_getLast_of_ne_nil hpne⟩
          have hprevs : prev = some pa := by rw [hprev, hpa]
          subst hprevs
          have hpa_mem : pa ∈ preC.map Prod.fst := mem_of_getLast?_eq hpa
          have hpa_ne_a : pa ≠ x.1 :=
            fun hh => hdisj (hh ▸ hpa_mem) (List.mem_cons_self _ _)
          have hpa_notC : pa ∉ c2.map Prod.fst := hdisjPC hpa_mem
          have hx_mem : x.1 ∈ (setNext s.heap pa x.2.next).map Prod.fst := by
            rw [keys_setNext]
            exact hlookup_mem_keys hl
          have hlenE := length_herase_mem hx_mem
          rw [length_setNext] at hlenE
          -- the relinked prefix chain
          have hseg1 : Seg (setNext s.heap pa x.2.next) s.head
              (setLastNext preC x.2.next) x.2.next :=
            seg_setLastNext hpre hpa hndP
          have hseg1' : Seg (herase (setNext s.heap pa x.2.next) x.1) s.head
              (setLastNext preC x.2.next) x.2.next :=
            seg_frame hseg1 (fun y hy => by
              rw [keys_setLastNext] at hy
              exact hlookup_herase_ne (fun hh => hanotP (hh ▸ hy)))
          -- the suffix chain is untouched
          have hseg2' : Seg (herase (setNext s.heap pa x.2.next) x.1) x.2.next
              c2 none := by
            refine seg_frame hs2 (fun y hy => ?_)
            have hy1 : y ≠ x.1 := fun hh => hanotC (hh ▸ hy)
            have hy2 : y ≠ pa := fun hh => hpa_notC (hh ▸ hy)
            rw [hlookup_herase_ne hy1, hlookup_setNext_ne hy2]
          have hkeys3 : (herase (setNext s.heap pa x.2.next) x.1).map Prod.fst
              = (s.heap.map Prod.fst).erase x.1 := by
            rw [keys_herase, keys_setNext]
          have hndK : ((herase (setNext s.heap pa x.2.next) x.1).map
              Prod.fst).Nodup := by
            rw [hkeys3]
            exact hknd.erase x.1
          have hfaK : ∀ a ∈ (herase (setNext s.heap pa x.2.next) x.1).map
              Prod.fst, a < s.fresh := by
            intro y hy
            rw [hkeys3] at hy
            exact hfa y (List.erase_subset _ _ hy)
          have hlen3 : (herase (setNext s.heap pa x.2.next) x.1).length =
              (setLastNext preC x.2.next ++ c2).length := by
            rw [List.length_append, length_setLastNext]
            omega
          have hent3 : s.entries - 1 = (setLastNext preC x.2.next ++ c2).length := by
            rw [List.length_append, length_setLastNext]
            omega
          cases hnx : x.2.next with
          | none =>
            rw [hnx] at hseg1' hseg2' hlen3 hent3
            have hc2 : c2 = [] := (seg_none_start hseg2').1
            subst hc2
            refine ⟨x.2.data, { s with heap := herase (setNext s.heap pa none) x.1, tail := some pa, entries := s.entries - 1 }, rfl, ?_, by show s.entries - 1 + 1 = s.entries; omega⟩
            refine wf_of_seg (c := setLastNext preC none ++ [])
              (seg_append hseg1' (Seg.nil none)) hent3 hlen3 ?_
              ?_ (by rw [hnx] at hndK; exact hndK) (by rw [hnx] at hfaK; exact hfaK)
            · show some pa = _
              rw [List.append_nil, keys_setLastNext, hpa]
            · rw [List.append_nil, keys_setLastNext]
              exact hndP
          | some b =>
            rw [hnx] at hseg1' hseg2' hlen3 hent3
            have hc2ne : c2 ≠ [] := by
              intro hcc
              subst hcc
              have := seg_nil_inv hseg2'
              simp at this
            refine ⟨x.2.data, { s with heap := herase (setNext s.heap pa (some b)) x.1, entries := s.entries - 1 }, rfl, ?_, by show s.entries - 1 + 1 = s.entries; omega⟩
            refine wf_of_seg (c := setLastNext preC (some b) ++ c2)
              (seg_append hseg1' hseg2') hent3 hlen3 ?_ ?_
              (by rw [hnx] at hndK; exact hndK) (by rw [hnx] at hfaK; exact hfaK)
            · show s.tail = _
              rw [htail, List.map_append, List.map_cons, List.map_append,
                keys_setLastNext,
                @getLast?_append_ne_nil Nat _ (x.1 :: c2.map Prod.fst) (by simp),
                getLast?_append_ne_nil _ (by simpa using hc2ne),
                getLast?_cons_of_ne_nil _ (by simpa using hc2ne)]
            · rw [List.map_append, keys_setLastNext]
              exact List.Nodup.append hndP hndC2 hdisjPC
      · -- no match here: continue the scan
        rw [if_neg hd]
        have hpre' : Seg s.heap s.head (preC ++ [x]) x.2.next :=
          seg_append hpre (Seg.cons x.1 x.2 [] x.2.next hl (Seg.nil x.2.next))
        have hassoc : preC ++ [x] ++ c2 = preC ++ x :: c2 := by
          rw [List.append_assoc, List.singleton_append]
        refine (ih f (preC ++ [x]) s x.2.next (some x.1) hpre' hs2 ?_ ?_ hknd
          ?_ ?_ ?_ hfa (by simpa using hfuel)).imp id id
        · rw [List.map_append, List.map_singleton, List.getLast?_concat]
        · rw [hassoc, List.map_append, List.map_cons, List.nodup_append]
          exact ⟨hndP, hndC, hdisj⟩
        · rw [hassoc, List.length_append, List.length_cons]
          exact hlen
        · rw [hassoc, List.length_append, List.length_cons]
          exact he
        · rw [hassoc]
          exact htail


theorem wf_queue_remove (s : QState) (d : Nat) (h : WF s) :
    WF (queue_remove s d).2 := by
  rw [queue_remove]
  by_cases hd : d = 0
  · rw [if_pos hd]
    exact h
  · rw [if_neg hd]
    obtain ⟨c, hseg, he, hhl, ht, hnd, hknd, hfa⟩ := wf_elim h
    rcases removeLoop_spec d c (s.heap.length + 1) [] s s.head none
        (Seg.nil s.head) hseg rfl (by simpa using hnd) hknd
        (by simpa using hhl) (by simpa using he) (by simpa using ht) hfa
        (by omega) with h1 | ⟨s', h1, hwf, _⟩
    · rw [h1]
      exact h
    · rw [h1]
      exact hwf

theorem wf_queue_remove_if (s : QState) (p : Option (Nat → Nat → Bool))
    (ud : Nat) (h : WF s) : WF (queue_remove_if s p ud).2 := by
  cases p with
  | none => exact h
  | some g =>
    rw [queue_remove_if]
    obtain ⟨c, hseg, he, hhl, ht, hnd, hknd, hfa⟩ := wf_elim h
    rcases removeIfLoop_spec g ud c (s.heap.length + 1) [] s s.head none
        (Seg.nil s.head) hseg rfl (by simpa using hnd) hknd
        (by simpa using hhl) (by simpa using he) (by simpa using ht) hfa
        (by omega) with h1 | ⟨v, s', h1, hwf, _⟩
    · rw [h1]
      exact h
    · rw [h1]
      exact hwf

theorem wf_queue_remove_all (s : QState) (p : Option (Nat → Nat → Bool))
    (ud : Nat) (useD : Bool) (h : WF s) :
    WF (queue_remove_all s p ud useD).2.1 := by
  obtain ⟨c, hseg, he, hhl, ht, hnd, hknd, hfa⟩ := wf_elim h
  cases p with
  | none =>
    rw [queue_remove_all]
    obtain ⟨s', heq, hlen', hfr, hknd', hsub, hf', ha', hr', hh', ht', he'⟩ :=
      destroyLoop_spec useD c (s.heap.length + 1) s s.head hseg hnd hknd
        (by omega)
    rw [heq]
    have hempty : s'.heap = [] :=
      List.length_eq_zero.mp (by omega)
    refine wf_of_seg (c := []) ?_ rfl ?_ rfl List.nodup_nil ?_ ?_
    · show Seg s'.heap none [] none
      exact Seg.nil none
    · show s'.heap.length = 0
      omega
    · show (s'.heap.map Prod.fst).Nodup
      exact hknd'
    · show ∀ a ∈ s'.heap.map Prod.fst, a < s'.fresh
      rw [hempty]
      simp
  | some g =>
    rw [queue_remove_all]
    obtain ⟨s', chain, heq, hch, hcf, hcd, hlen', htl', hknd', hsub',
        he', hf', hr', ha'⟩ :=
      removeAllLoop_spec g ud useD c (s.heap.length + 1) [] s s.head none
        (Seg.nil s.head) hseg rfl (by simpa using hnd) hknd
        (by simpa using hhl) (by simpa using ht) (by omega)
    rw [heq]
    have hchlen : chain.length =
        (c.filter (fun y => !g y.2.data ud)).length := by
      have := congrArg List.length hcf
      simpa using this
    have hsplit := length_filter_split (fun y => g y.2.data ud) c
    have hndchain : (chain.map Prod.fst).Nodup := by
      rw [hcf]
      simp only [List.nil_append]
      exact List.Nodup.sublist
        (List.Sublist.map Prod.fst (List.filter_sublist c)) hnd
    refine wf_of_seg (c := chain) hch ?_ hlen' htl' hndchain hknd' ?_
    · show s'.entries -
        (c.filter (fun y => g y.2.data ud)).length = chain.length
      rw [he', he]
      omega
    · show ∀ a ∈ s'.heap.map Prod.fst, a < s'.fresh
      intro a ha
      rw [hf']
      exact hfa a (hsub' a ha)

theorem queue_find_state (s : QState) (f : Option (Nat → Nat → Bool))
    (md : Nat) : (queue_find s f md).2 = s := by
  cases f <;> rfl

theorem queue_peek_head_state (s : QState) : (queue_peek_head s).2 = s := by
  unfold queue_peek_head
  split
  · rfl
  · split <;> rfl

theorem queue_peek_tail_state (s : QState) : (queue_peek_tail s).2 = s := by
  unfold queue_peek_tail
  split
  · rfl
  · split <;> rfl

/-! ### Length bookkeeping over operation sequences -/

theorem wf_empty_iff (s : QState) (h : WF s) :
    s.entries = 0 ↔ s.head = none ∧ s.tail = none := by
  obtain ⟨c, hseg, he, hhl, ht, hnd, hknd, hfa⟩ := wf_elim h
  constructor
  · intro h0
    have hc : c = [] := List.length_eq_zero.mp (by omega)
    subst hc
    exact ⟨seg_nil_inv hseg, by simpa using ht⟩
  · rintro ⟨hh, -⟩
    rw [hh] at hseg
    have := (seg_none_start hseg).1
    subst this
    simpa using he

theorem queue_push_head_entries (s : QState) (d : Nat) :
    (queue_push_head s d true).2.entries = s.entries + 1 := by
  rw [queue_push_head_true]

theorem queue_push_tail_entries (s : QState) (d : Nat) :
    (queue_push_tail s d true).2.entries = s.entries + 1 := by
  cases ht : s.tail with
  | none => rw [queue_push_tail_true_none s d ht]
  | some t => rw [queue_push_tail_true_some s d t ht]

theorem pop_head_cases (s : QState) (h : WF s) :
    (s.head = none ∧ queue_pop_head s = (0, s)) ∨
    (s.head.isSome = true ∧ (queue_pop_head s).2.entries + 1 = s.entries) := by
  obtain ⟨c, hseg, he, hhl, ht, hnd, hknd, hfa⟩ := wf_elim h
  cases c with
  | nil =>
    have hhd : s.head = none := seg_nil_inv hseg
    refine Or.inl ⟨hhd, ?_⟩
    unfold queue_pop_head
    rw [hhd]
  | cons x c' =>
    obtain ⟨hhd, hl, hs'⟩ := seg_cons_inv (a := x.1) (e := x.2) (c := c') hseg
    refine Or.inr ⟨by rw [hhd]; rfl, ?_⟩
    rw [queue_pop_head, hhd]
    simp only [hl]
    rw [List.length_cons] at he
    cases hnx : x.2.next with
    | none =>
      show s.entries - 1 + 1 = s.entries
      omega
    | some b =>
      show s.entries - 1 + 1 = s.entries
      omega

theorem runOps_spec :
    ∀ (ops : List QOp) (s : QState), WF s →
      WF (runOps s ops).1 ∧
      queue_length (runOps s ops).1 + (runOps s ops).2.2 =
        queue_length s + (runOps s ops).2.1 := by
  intro ops
  induction ops with
  | nil => exact fun s h => ⟨h, rfl⟩
  | cons op rest ih =>
    intro s h
    cases op with
    | pushHead d ok =>
      obtain ⟨hwf, hcount⟩ := ih (queue_push_head s d ok).2
        (wf_queue_push_head s d ok h)
      simp only [runOps, queue_length] at hcount ⊢
      cases ok with
      | false =>
        have hr : queue_push_head s d false = (false, s) := rfl
        rw [hr] at hcount ⊢
        refine ⟨hwf, ?_⟩
        simpa using hcount
      | true =>
        have hr1 : (queue_push_head s d true).1 = true := by
          rw [queue_push_head_true]
        rw [hr1]
        refine ⟨hwf, ?_⟩
        have hent := queue_push_head_entries s d
        have hif : (if (true = true) then (1 : Nat) else 0) = 1 := rfl
        rw [hif]
        omega
    | pushTail d ok =>
      obtain ⟨hwf, hcount⟩ := ih (queue_push_tail s d ok).2
        (wf_queue_push_tail s d ok h)
      simp only [runOps, queue_length] at hcount ⊢
      cases ok with
      | false =>
        have hr : queue_push_tail s d false = (false, s) := rfl
        rw [hr] at hcount ⊢
        refine ⟨hwf, ?_⟩
        simpa using hcount
      | true =>
        have hr1 : (queue_push_tail s d true).1 = true := by
          cases ht : s.tail with
          | none => rw [queue_push_tail_true_none s d ht]
          | some t => rw [queue_push_tail_true_some s d t ht]
        rw [hr1]
        refine ⟨hwf, ?_⟩
        have hent := queue_push_tail_entries s d
        have hif : (if (true = true) then (1 : Nat) else 0) = 1 := rfl
        rw [hif]
        omega
    | popHead =>
      obtain ⟨hwf, hcount⟩ := ih (queue_pop_head s).2 (wf_queue_pop_head s h)
      simp only [runOps, queue_length] at hcount ⊢
      refine ⟨hwf, ?_⟩
      rcases pop_head_cases s h with ⟨hh, hpop⟩ | ⟨hh, hent⟩
      · have hs2 : (queue_pop_head s).2 = s := by rw [hpop]
        rw [hs2, hh]
        rw [hs2] at hcount
        simpa using hcount
      · rw [hh]
        have hif : (if (true = true) then (1 : Nat) else 0) = 1 := rfl
        rw [hif]
        omega

/-! ### Claim support definitions and helpers -/

theorem queue_remove_all_none_eq (s : QState) (ud : Nat) (useD : Bool) :
    queue_remove_all s none ud useD =
      ((destroyLoop useD (s.heap.length + 1) s s.head).2.2,
       { (destroyLoop useD (s.heap.length + 1) s s.head).1 with
          head := none, tail := none, entries := 0 },
       (destroyLoop useD (s.heap.length + 1) s s.head).2.1) := rfl

theorem queue_remove_all_some_eq (s : QState) (g : Nat → Nat → Bool)
    (ud : Nat) (useD : Bool) :
    queue_remove_all s (some g) ud useD =
      ((removeAllLoop g ud useD (s.heap.length + 1) s s.head none).1,
       { (removeAllLoop g ud useD (s.heap.length + 1) s s.head none).2.1 with
          entries :=
            (removeAllLoop g ud useD (s.heap.length + 1) s s.head none).2.1.entries
              - (removeAllLoop g ud useD (s.heap.length + 1) s s.head none).1 },
       (removeAllLoop g ud useD (s.heap.length + 1) s s.head none).2.2) := rfl

theorem QState.ext' {s t : QState} (h1 : s.heap = t.heap)
    (h2 : s.fresh = t.fresh) (h3 : s.alive = t.alive)
    (h4 : s.ref_count = t.ref_count) (h5 : s.head = t.head)
    (h6 : s.tail = t.tail) (h7 : s.entries = t.entries) : s = t := by
  cases s
  cases t
  simp_all

theorem mk4_eq (a b c d : Nat) :
    mk4 a b c d =
      { heap := [(3, ⟨d, none⟩), (2, ⟨c, some 3⟩), (1, ⟨b, some 2⟩),
                 (0, ⟨a, some 1⟩)],
        fresh := 4, alive := true, ref_count := 1,
        head := some 0, tail := some 3, entries := 4 } := rfl

theorem wf_mk4 (a b c d : Nat) : WF (mk4 a b c d) :=
  ⟨[(0, ⟨a, some 1⟩), (1, ⟨b, some 2⟩), (2, ⟨c, some 3⟩), (3, ⟨d, none⟩)],
    rfl, rfl, rfl, rfl,
    by show ([0, 1, 2, 3] : List Nat).Nodup; decide,
    by show ([3, 2, 1, 0] : List Nat).Nodup; decide,
    by show ∀ y ∈ ([3, 2, 1, 0] : List Nat), y < 4; decide⟩

/-! ### The claims -/

/-- C3: every public operation (create, push_head, push_tail, pop_head,
remove, remove_if, remove_all, find, peek_head, peek_tail) preserves the
structural invariants of the queue state: the walk from head via
next-links reaches the tail node whose next link is absent, `entries`
counts exactly the reachable nodes (hence `entries = 0` iff head and tail
are both absent). -/
theorem queue_ops_preserve_invariants :
    WF queue_new ∧
    (∀ (s : QState) (d : Nat) (ok : Bool), WF s →
      WF (queue_push_head s d ok).2) ∧
    (∀ (s : QState) (d : Nat) (ok : Bool), WF s →
      WF (queue_push_tail s d ok).2) ∧
    (∀ s : QState, WF s → WF (queue_pop_head s).2) ∧
    (∀ (s : QState) (d : Nat), WF s → WF (queue_remove s d).2) ∧
    (∀ (s : QState) (p : Option (Nat → Nat → Bool)) (ud : Nat), WF s →
      WF (queue_remove_if s p ud).2) ∧
    (∀ (s : QState) (p : Option (Nat → Nat → Bool)) (ud : Nat)
      (useD : Bool), WF s → WF (queue_remove_all s p ud useD).2.1) ∧
    (∀ (s : QState) (f : Option (Nat → Nat → Bool)) (md : Nat), WF s →
      WF (queue_find s f md).2) ∧
    (∀ s : QState, WF s → WF (queue_peek_head s).2) ∧
    (∀ s : QState, WF s → WF (queue_peek_tail s).2) ∧
    (∀ s : QState, WF s → (s.entries = 0 ↔ s.head = none ∧ s.tail = none)) :=
  ⟨wf_queue_new, wf_queue_push_head, wf_queue_push_tail, wf_queue_pop_head,
    wf_queue_remove, wf_queue_remove_if, wf_queue_remove_all,
    (fun s f md h => (queue_find_state s f md).symm ▸ h),
    (fun s h => (queue_peek_head_state s).symm ▸ h),
    (fun s h => (queue_peek_tail_state s).symm ▸ h),
    wf_empty_iff⟩

theorem queue_ops_preserve_invariants_witness :
    WF (queue_push_tail (mk4 1 2 3 4) 7 true).2 ∧
    WF (queue_pop_head (mk4 1 2 3 4)).2 ∧
    WF (queue_remove (mk4 1 2 3 4) 2).2 ∧
    WF (queue_remove_all (mk4 1 2 3 4) none 0 true).2.1 :=
  ⟨queue_ops_preserve_invariants.2.2.1 (mk4 1 2 3 4) 7 true (wf_mk4 1 2 3 4),
   queue_ops_preserve_invariants.2.2.2.1 (mk4 1 2 3 4) (wf_mk4 1 2 3 4),
   queue_ops_preserve_invariants.2.2.2.2.1 (mk4 1 2 3 4) 2 (wf_mk4 1 2 3 4),
   queue_ops_preserve_invariants.2.2.2.2.2.2.1 (mk4 1 2 3 4) none 0 true
     (wf_mk4 1 2 3 4)⟩

/-- C4: over any workload of `push_head`/`push_tail`/`pop_head` starting
from a fresh queue, `queue_length` equals the number of successful pushes
minus the number of non-empty pops, and `queue_isempty` holds exactly when
`queue_length` is zero. -/
theorem length_counts_pushes_minus_pops (ops : List QOp) :
    queue_length (runOps queue_new ops).1 =
      (runOps queue_new ops).2.1 - (runOps queue_new ops).2.2 ∧
    (runOps queue_new ops).2.2 ≤ (runOps queue_new ops).2.1 ∧
    (queue_isempty (runOps queue_new ops).1 = true ↔
      queue_length (runOps queue_new ops).1 = 0) := by
  obtain ⟨-, hcount⟩ := runOps_spec ops queue_new wf_queue_new
  have h0 : queue_length queue_new = 0 := rfl
  refine ⟨by omega, by omega, ?_⟩
  show ((runOps queue_new ops).1.entries == 0) = true ↔ _
  simp [queue_length]

/-- C5: a push whose node allocation fails returns `false` and leaves the
entire queue state (head, tail, entries and every node) untouched. -/
theorem push_alloc_failure_no_mutation (s : QState) (d : Nat) :
    queue_push_tail s d false = (false, s) ∧
    queue_push_head s d false = (false, s) :=
  ⟨rfl, rfl⟩

/-- C6: `queue_find` with an absent matcher returns the absent result for
every queue; the internal `direct_match` helper is not applied as a
default, even when it would have found the handle. -/
theorem find_absent_matcher_returns_absent :
    (∀ (s : QState) (md : Nat), queue_find s none md = (0, s)) ∧
    (∀ md : Nat,
      (queue_find (queue_push_tail queue_new md true).2 none md).1 = 0 ∧
      (queue_find (queue_push_tail queue_new md true).2
        (some direct_match) md).1 = md) := by
  refine ⟨fun s md => rfl, fun md => ⟨rfl, ?_⟩⟩
  show findLoop direct_match md
    ((([(0, ⟨md, none⟩)] : Heap)).length + 1) [(0, ⟨md, none⟩)] (some 0) = md
  rw [findLoop_succ]
  simp [hlookup, direct_match]

/-- C9: `push_tail` accepts the null handle (`0`) and stores it as a
regular entry, while `queue_remove` with the null handle always fails
fast and leaves the queue untouched, even if null handles are stored. -/
theorem null_handle_push_remove :
    (∀ s : QState, (queue_push_tail s 0 true).1 = true) ∧
    (∀ s : QState, queue_remove s 0 = (false, s)) ∧
    (∀ s : QState, WF s →
      ∃ a, (queue_push_tail s 0 true).2.tail = some a ∧
        hlookup (queue_push_tail s 0 true).2.heap a = some ⟨0, none⟩) := by
  refine ⟨?_, fun s => rfl, ?_⟩
  · intro s
    cases ht : s.tail with
    | none => rw [queue_push_tail_true_none s 0 ht]
    | some t => rw [queue_push_tail_true_some s 0 t ht]
  · intro s h
    obtain ⟨c, hseg, he, hhl, ht, hnd, hknd, hfa⟩ := wf_elim h
    cases htl : s.tail with
    | none =>
      rw [queue_push_tail_true_none s 0 htl]
      exact ⟨s.fresh, rfl, by rw [hlookup]; simp⟩
    | some t =>
      rw [queue_push_tail_true_some s 0 t htl]
      have htc : t ∈ c.map Prod.fst := mem_of_getLast?_eq (htl ▸ ht).symm
      have htk : t ∈ s.heap.map Prod.fst := seg_keys_subset hseg htc
      have htf : t < s.fresh := hfa t htk
      refine ⟨s.fresh, rfl, ?_⟩
      rw [setNext_cons_ne (by show s.fresh ≠ t; omega), hlookup]
      simp

theorem null_handle_push_remove_witness :
    ∃ a, (queue_push_tail (queue_push_tail queue_new 0 true).2 0 true).2.tail
        = some a ∧
      hlookup (queue_push_tail (queue_push_tail queue_new 0 true).2
        0 true).2.heap a = some ⟨0, none⟩ :=
  null_handle_push_remove.2.2 (queue_push_tail queue_new 0 true).2
    ⟨[(0, ⟨0, none⟩)], rfl, rfl, rfl, rfl,
      by show ([0] : List Nat).Nodup; decide,
      by show ([0] : List Nat).Nodup; decide,
      by show ∀ y ∈ ([0] : List Nat), y < 1; decide⟩

/-- C7: `queue_remove_all` with no predicate removes every entry, feeds
each stored handle to the supplied destructor exactly once in
head-to-tail order, returns the former entry count, and leaves the queue
empty with head and tail absent. -/
theorem remove_all_no_predicate_clears (s : QState) (ud : Nat) (h : WF s)
    (c : Chain) (hc : qchain s = some c) :
    (queue_remove_all s none ud true).1 = s.entries ∧
    (queue_remove_all s none ud true).2.2 = c.map (fun y => y.2.data) ∧
    queue_length (queue_remove_all s none ud true).2.1 = 0 ∧
    (queue_remove_all s none ud true).2.1.head = none ∧
    (queue_remove_all s none ud true).2.1.tail = none := by
  obtain ⟨c0, hch0, he, hhl, ht, hnd, hknd, hfa⟩ := h
  rw [hc] at hch0
  have hcc : c = c0 := Option.some.inj hch0
  subst hcc
  have hseg := seg_of_chainFrom (h := s.heap) s.heap.length s.head c hc
  obtain ⟨s', heq, hlen', hfr, hknd', hsub, hf', ha', hr', hh', ht', he'⟩ :=
    destroyLoop_spec true c (s.heap.length + 1) s s.head hseg hnd hknd
      (by omega)
  rw [queue_remove_all_none_eq, heq]
  exact ⟨by show c.length = s.entries; omega, rfl, rfl, rfl, rfl⟩

theorem remove_all_no_predicate_clears_witness :
    (queue_remove_all (mk4 1 2 3 4) none 0 true).1 = (mk4 1 2 3 4).entries ∧
    (queue_remove_all (mk4 1 2 3 4) none 0 true).2.2 = [1, 2, 3, 4] ∧
    queue_length (queue_remove_all (mk4 1 2 3 4) none 0 true).2.1 = 0 ∧
    (queue_remove_all (mk4 1 2 3 4) none 0 true).2.1.head = none ∧
    (queue_remove_all (mk4 1 2 3 4) none 0 true).2.1.tail = none :=
  remove_all_no_predicate_clears (mk4 1 2 3 4) 0 (wf_mk4 1 2 3 4)
    [(0, ⟨1, some 1⟩), (1, ⟨2, some 2⟩), (2, ⟨3, some 3⟩), (3, ⟨4, none⟩)]
    (by decide)

/-- C8: `queue_remove_all` with a predicate unlinks exactly the entries
whose handle satisfies it, in one head-to-tail pass: it returns the count
of matching entries, invokes the destructor (when supplied) on exactly
the removed handles in order, and the surviving entries keep their
relative head-to-tail order (same addresses and handles as filtering the
original chain). -/
theorem remove_all_predicate_filters (s : QState) (g : Nat → Nat → Bool)
    (ud : Nat) (useD : Bool) (h : WF s) (c : Chain)
    (hc : qchain s = some c) :
    (queue_remove_all s (some g) ud useD).1 =
      (c.filter (fun y => g y.2.data ud)).length ∧
    (queue_remove_all s (some g) ud useD).2.2 =
      (if useD then
        (c.filter (fun y => g y.2.data ud)).map (fun y => y.2.data)
       else []) ∧
    WF (queue_remove_all s (some g) ud useD).2.1 ∧
    ∃ c', qchain (queue_remove_all s (some g) ud useD).2.1 = some c' ∧
      c'.map Prod.fst = (c.filter (fun y => !g y.2.data ud)).map Prod.fst ∧
      c'.map (fun y => y.2.data) =
        (c.filter (fun y => !g y.2.data ud)).map (fun y => y.2.data) := by
  have hwf := wf_queue_remove_all s (some g) ud useD h
  obtain ⟨c0, hch0, he, hhl, ht, hnd, hknd, hfa⟩ := h
  rw [hc] at hch0
  have hcc : c = c0 := Option.some.inj hch0
  subst hcc
  have hseg := seg_of_chainFrom (h := s.heap) s.heap.length s.head c hc
  obtain ⟨s', chain, heq, hch, hcf, hcd, hlen', htl', hknd', hsub',
      he', hf', hr', ha'⟩ :=
    removeAllLoop_spec g ud useD c (s.heap.length + 1) [] s s.head none
      (Seg.nil s.head) hseg rfl (by simpa using hnd) hknd
      (by simpa using hhl) (by simpa using ht) (by omega)
  refine ⟨?_, ?_, hwf, chain, ?_, by simpa using hcf, by simpa using hcd⟩
  · rw [queue_remove_all_some_eq, heq]
  · rw [queue_remove_all_some_eq, heq]
  · rw [queue_remove_all_some_eq, heq]
    show chainFrom s'.heap s'.heap.length s'.head = some chain
    exact chainFrom_of_seg hch (le_of_eq hlen'.symm)

theorem remove_all_predicate_filters_witness :
    (queue_remove_all (mk4 1 2 3 4)
      (some (fun x _ => x % 2 == 0)) 0 true).1 = 2 ∧
    (queue_remove_all (mk4 1 2 3 4)
      (some (fun x _ => x % 2 == 0)) 0 true).2.2 = [2, 4] ∧
    WF (queue_remove_all (mk4 1 2 3 4)
      (some (fun x _ => x % 2 == 0)) 0 true).2.1 := by
  obtain ⟨h1, h2, h3, -⟩ :=
    remove_all_predicate_filters (mk4 1 2 3 4) (fun x _ => x % 2 == 0) 0 true
      (wf_mk4 1 2 3 4)
      [(0, ⟨1, some 1⟩), (1, ⟨2, some 2⟩), (2, ⟨3, some 3⟩), (3, ⟨4, none⟩)]
      (by decide)
  exact ⟨by rw [h1]; decide, by rw [h2]; decide, h3⟩

/-- C10: `queue_remove_all` with the constantly-true predicate produces
exactly the same result (count, final queue state, and destructor
invocation sequence) as `queue_remove_all` with no predicate: the
filtered-removal branch and the clear-all branch coincide. -/
theorem remove_all_true_pred_matches_clear (s : QState) (ud : Nat)
    (useD : Bool) (h : WF s) :
    queue_remove_all s (some (fun _ _ => true)) ud useD =
      queue_remove_all s none ud useD := by
  obtain ⟨c, hch0, he, hhl, ht, hnd, hknd, hfa⟩ := h
  have hseg := seg_of_chainFrom (h := s.heap) s.heap.length s.head c hch0
  obtain ⟨s', chain, heq, hch, hcf, hcd, hlen', htl', hknd', hsub',
      he', hf', hr', ha'⟩ :=
    removeAllLoop_spec (fun _ _ => true) ud useD c (s.heap.length + 1) [] s
      s.head none (Seg.nil s.head) hseg rfl (by simpa using hnd) hknd
      (by simpa using hhl) (by simpa using ht) (by omega)
  obtain ⟨s'', heq2, hlen2, hfr2, hknd2, hsub2, hf2, ha2, hr2, hh2, ht2,
      he2⟩ :=
    destroyLoop_spec useD c (s.heap.length + 1) s s.head hseg hnd hknd
      (by omega)
  -- with a constantly-true predicate every entry matches
  have hft : c.filter (fun y => (fun _ _ => true) y.2.data ud) = c := by
    simp
  have hff : c.filter (fun y => !(fun _ _ => true) y.2.data ud) = [] := by
    simp
  rw [hft] at heq
  rw [hff] at hcf hcd
  have hcf' : chain.map Prod.fst = [] := by simpa using hcf
  have hchain : chain = [] := List.map_eq_nil_iff.mp hcf'
  subst hchain
  have hhead' : s'.head = none := seg_nil_inv hch
  have hheap' : s'.heap = [] := List.length_eq_zero.mp (by simpa using hlen')
  have hheap2 : s''.heap = [] := List.length_eq_zero.mp (by omega)
  rw [queue_remove_all_some_eq, queue_remove_all_none_eq, heq, heq2]
  have hstate : ({ s' with entries := s'.entries - c.length } : QState) =
      { s'' with head := none, tail := none, entries := 0 } := by
    refine QState.ext' ?_ ?_ ?_ ?_ ?_ ?_ ?_
    · show s'.heap = s''.heap
      rw [hheap', hheap2]
    · show s'.fresh = s''.fresh
      rw [hf', hf2]
    · show s'.alive = s''.alive
      rw [ha', ha2]
    · show s'.ref_count = s''.ref_count
      rw [hr', hr2]
    · show s'.head = none
      exact hhead'
    · show s'.tail = none
      simpa using htl'
    · show s'.entries - c.length = 0
      rw [he']
      omega
  rw [hstate]

theorem remove_all_true_pred_matches_clear_witness :
    queue_remove_all (mk4 1 2 3 4) (some (fun _ _ => true)) 0 true =
      queue_remove_all (mk4 1 2 3 4) none 0 true :=
  remove_all_true_pred_matches_clear (mk4 1 2 3 4) 0 true (wf_mk4 1 2 3 4)

/-- C1: on a queue `[A, B, C, D]`, `queue_foreach` with a callback that
removes the current entry when it is invoked on `B` still invokes the
callback on `C` and then on `D` afterwards: the visit trace is exactly
`[A, B, C, D]`, with no visit skipped and none duplicated.  (`B` is a
distinct non-null handle so that the by-value removal hits exactly the
current node; the fuel `k + 4` covers the four loop iterations.) -/
theorem foreach_callback_removing_current_entry (a b c d : Nat)
    (hb0 : b ≠ 0) (hab : a ≠ b) (hcb : c ≠ b) (hdb : d ≠ b) (k : Nat) :
    (queue_foreach (k + 4) (mk4 a b c d)
      (fun s x => if x = b then (queue_remove s x).2 else s)).2 =
      [a, b, c, d] := by
  have hrem : queue_remove (⟨[(3, ⟨d, none⟩), (2, ⟨c, some 3⟩), (1, ⟨b, some 2⟩), (0, ⟨a, some 1⟩)], 4, true, 2, some 0, some 3, 4⟩ : QState) b = (true, (⟨[(3, ⟨d, none⟩), (2, ⟨c, some 3⟩), (0, ⟨a, some 2⟩)], 4, true, 2, some 0, some 3, 3⟩ : QState)) := by
    have step1 : removeLoop b (4 + 1) (⟨[(3, ⟨d, none⟩), (2, ⟨c, some 3⟩), (1, ⟨b, some 2⟩), (0, ⟨a, some 1⟩)], 4, true, 2, some 0, some 3, 4⟩ : QState) (some 0) none =
        removeLoop b 4 (⟨[(3, ⟨d, none⟩), (2, ⟨c, some 3⟩), (1, ⟨b, some 2⟩), (0, ⟨a, some 1⟩)], 4, true, 2, some 0, some 3, 4⟩ : QState) (some 1) (some 0) := by
      rw [removeLoop_succ]
      simp only [show hlookup ([(3, ⟨d, none⟩), (2, ⟨c, some 3⟩), (1, ⟨b, some 2⟩), (0, ⟨a, some 1⟩)] : Heap) 0 = some ⟨a, some 1⟩ from rfl]
      simp only [hab, if_false]
    have step2 : removeLoop b (3 + 1) (⟨[(3, ⟨d, none⟩), (2, ⟨c, some 3⟩), (1, ⟨b, some 2⟩), (0, ⟨a, some 1⟩)], 4, true, 2, some 0, some 3, 4⟩ : QState) (some 1) (some 0) =
        (true, (⟨[(3, ⟨d, none⟩), (2, ⟨c, some 3⟩), (0, ⟨a, some 2⟩)], 4, true, 2, some 0, some 3, 3⟩ : QState)) := by
      rw [removeLoop_succ]
      simp only [show hlookup ([(3, ⟨d, none⟩), (2, ⟨c, some 3⟩), (1, ⟨b, some 2⟩), (0, ⟨a, some 1⟩)] : Heap) 1 = some ⟨b, some 2⟩ from rfl]
      simp only [eq_self_iff_true, if_true]
      rfl
    rw [queue_remove, if_neg hb0]
    exact step1.trans step2
  have main : ∀ f : QState → Nat → QState,
      f (⟨[(3, ⟨d, none⟩), (2, ⟨c, some 3⟩), (1, ⟨b, some 2⟩), (0, ⟨a, some 1⟩)], 4, true, 2, some 0, some 3, 4⟩ : QState) a = (⟨[(3, ⟨d, none⟩), (2, ⟨c, some 3⟩), (1, ⟨b, some 2⟩), (0, ⟨a, some 1⟩)], 4, true, 2, some 0, some 3, 4⟩ : QState) →
      f (⟨[(3, ⟨d, none⟩), (2, ⟨c, some 3⟩), (1, ⟨b, some 2⟩), (0, ⟨a, some 1⟩)], 4, true, 2, some 0, some 3, 4⟩ : QState) b = (⟨[(3, ⟨d, none⟩), (2, ⟨c, some 3⟩), (0, ⟨a, some 2⟩)], 4, true, 2, some 0, some 3, 3⟩ : QState) →
      f (⟨[(3, ⟨d, none⟩), (2, ⟨c, some 3⟩), (0, ⟨a, some 2⟩)], 4, true, 2, some 0, some 3, 3⟩ : QState) c = (⟨[(3, ⟨d, none⟩), (2, ⟨c, some 3⟩), (0, ⟨a, some 2⟩)], 4, true, 2, some 0, some 3, 3⟩ : QState) →
      f (⟨[(3, ⟨d, none⟩), (2, ⟨c, some 3⟩), (0, ⟨a, some 2⟩)], 4, true, 2, some 0, some 3, 3⟩ : QState) d = (⟨[(3, ⟨d, none⟩), (2, ⟨c, some 3⟩), (0, ⟨a, some 2⟩)], 4, true, 2, some 0, some 3, 3⟩ : QState) →
      (foreachLoop f (k + 4) (⟨[(3, ⟨d, none⟩), (2, ⟨c, some 3⟩), (1, ⟨b, some 2⟩), (0, ⟨a, some 1⟩)], 4, true, 2, some 0, some 3, 4⟩ : QState) (some 0)).2 = [a, b, c, d] := by
    intro f hfa hfb hfc hfd
    have it1 : ∀ fl : Nat, foreachLoop f (fl + 1) (⟨[(3, ⟨d, none⟩), (2, ⟨c, some 3⟩), (1, ⟨b, some 2⟩), (0, ⟨a, some 1⟩)], 4, true, 2, some 0, some 3, 4⟩ : QState) (some 0) =
        ((foreachLoop f fl (⟨[(3, ⟨d, none⟩), (2, ⟨c, some 3⟩), (1, ⟨b, some 2⟩), (0, ⟨a, some 1⟩)], 4, true, 2, some 0, some 3, 4⟩ : QState) (some 1)).1,
          a :: (foreachLoop f fl (⟨[(3, ⟨d, none⟩), (2, ⟨c, some 3⟩), (1, ⟨b, some 2⟩), (0, ⟨a, some 1⟩)], 4, true, 2, some 0, some 3, 4⟩ : QState) (some 1)).2) := by
      intro fl
      rw [foreachLoop_succ]
      simp only [show hlookup ([(3, ⟨d, none⟩), (2, ⟨c, some 3⟩), (1, ⟨b, some 2⟩), (0, ⟨a, some 1⟩)] : Heap) 0 = some ⟨a, some 1⟩ from rfl]
      simp only [hfa]
      simp only [show queue_find_entry (⟨[(3, ⟨d, none⟩), (2, ⟨c, some 3⟩), (1, ⟨b, some 2⟩), (0, ⟨a, some 1⟩)], 4, true, 2, some 0, some 3, 4⟩ : QState) (some 1) = true from rfl]
      simp only [show ¬((⟨[(3, ⟨d, none⟩), (2, ⟨c, some 3⟩), (1, ⟨b, some 2⟩), (0, ⟨a, some 1⟩)], 4, true, 2, some 0, some 3, 4⟩ : QState).ref_count ≤ 1)
          from (show ¬((2 : Int) ≤ 1) from by decide), if_false, if_true]

    have it2 : ∀ fl : Nat, foreachLoop f (fl + 1) (⟨[(3, ⟨d, none⟩), (2, ⟨c, some 3⟩), (1, ⟨b, some 2⟩), (0, ⟨a, some 1⟩)], 4, true, 2, some 0, some 3, 4⟩ : QState) (some 1) =
        ((foreachLoop f fl (⟨[(3, ⟨d, none⟩), (2, ⟨c, some 3⟩), (0, ⟨a, some 2⟩)], 4, true, 2, some 0, some 3, 3⟩ : QState) (some 2)).1,
          b :: (foreachLoop f fl (⟨[(3, ⟨d, none⟩), (2, ⟨c, some 3⟩), (0, ⟨a, some 2⟩)], 4, true, 2, some 0, some 3, 3⟩ : QState) (some 2)).2) := by
      intro fl
      rw [foreachLoop_succ]
      simp only [show hlookup ([(3, ⟨d, none⟩), (2, ⟨c, some 3⟩), (1, ⟨b, some 2⟩), (0, ⟨a, some 1⟩)] : Heap) 1 = some ⟨b, some 2⟩ from rfl]
      simp only [hfb]
      simp only [show queue_find_entry (⟨[(3, ⟨d, none⟩), (2, ⟨c, some 3⟩), (0, ⟨a, some 2⟩)], 4, true, 2, some 0, some 3, 3⟩ : QState) (some 2) = true from rfl]
      simp only [show ¬((⟨[(3, ⟨d, none⟩), (2, ⟨c, some 3⟩), (1, ⟨b, some 2⟩), (0, ⟨a, some 1⟩)], 4, true, 2, some 0, some 3, 4⟩ : QState).ref_count ≤ 1)
          from (show ¬((2 : Int) ≤ 1) from by decide), if_false, if_true]

    have it3 : ∀ fl : Nat, foreachLoop f (fl + 1) (⟨[(3, ⟨d, none⟩), (2, ⟨c, some 3⟩), (0, ⟨a, some 2⟩)], 4, true, 2, some 0, some 3, 3⟩ : QState) (some 2) =
        ((foreachLoop f fl (⟨[(3, ⟨d, none⟩), (2, ⟨c, some 3⟩), (0, ⟨a, some 2⟩)], 4, true, 2, some 0, some 3, 3⟩ : QState) (some 3)).1,
          c :: (foreachLoop f fl (⟨[(3, ⟨d, none⟩), (2, ⟨c, some 3⟩), (0, ⟨a, some 2⟩)], 4, true, 2, some 0, some 3, 3⟩ : QState) (some 3)).2) := by
      intro fl
      rw [foreachLoop_succ]
      simp only [show hlookup ([(3, ⟨d, none⟩), (2, ⟨c, some 3⟩), (0, ⟨a, some 2⟩)] : Heap) 2 = some ⟨c, some 3⟩ from rfl]
      simp only [hfc]
      simp only [show queue_find_entry (⟨[(3, ⟨d, none⟩), (2, ⟨c, some 3⟩), (0, ⟨a, some 2⟩)], 4, true, 2, some 0, some 3, 3⟩ : QState) (some 3) = true from rfl]
      simp only [show ¬((⟨[(3, ⟨d, none⟩), (2, ⟨c, some 3⟩), (0, ⟨a, some 2⟩)], 4, true, 2, some 0, some 3, 3⟩ : QState).ref_count ≤ 1)
          from (show ¬((2 : Int) ≤ 1) from by decide), if_false, if_true]

    have it4 : ∀ fl : Nat, foreachLoop f (fl + 1) (⟨[(3, ⟨d, none⟩), (2, ⟨c, some 3⟩), (0, ⟨a, some 2⟩)], 4, true, 2, some 0, some 3, 3⟩ : QState) (some 3) =
        ((⟨[(3, ⟨d, none⟩), (2, ⟨c, some 3⟩), (0, ⟨a, some 2⟩)], 4, true, 2, some 0, some 3, 3⟩ : QState), [d]) := by
      intro fl
      rw [foreachLoop_succ]
      simp only [show hlookup ([(3, ⟨d, none⟩), (2, ⟨c, some 3⟩), (0, ⟨a, some 2⟩)] : Heap) 3 = some ⟨d, none⟩ from rfl]
      simp only [hfd]
      simp only [show queue_find_entry (⟨[(3, ⟨d, none⟩), (2, ⟨c, some 3⟩), (0, ⟨a, some 2⟩)], 4, true, 2, some 0, some 3, 3⟩ : QState) (none : Option Nat) = false from rfl]
      simp only [show ¬((⟨[(3, ⟨d, none⟩), (2, ⟨c, some 3⟩), (0, ⟨a, some 2⟩)], 4, true, 2, some 0, some 3, 3⟩ : QState).ref_count ≤ 1)
          from (show ¬((2 : Int) ≤ 1) from by decide), Bool.false_eq_true, if_false]
    rw [show k + 4 = (k + 3) + 1 from rfl, it1 (k + 3),
      show k + 3 = (k + 2) + 1 from rfl]
    rw [it2 (k + 2), show k + 2 = (k + 1) + 1 from rfl]
    rw [it3 (k + 1), it4 k]
  exact main (fun s x => if x = b then (queue_remove s x).2 else s)
    (by simp only [hab, if_false])
    (by simp only [eq_self_iff_true, if_true]; rw [hrem])
    (by simp only [hcb, if_false])
    (by simp only [hdb, if_false])

theorem foreach_callback_removing_current_entry_witness :
    (queue_foreach (0 + 4) (mk4 1 2 3 4)
      (fun s x => if x = 2 then (queue_remove s x).2 else s)).2 =
      [1, 2, 3, 4] :=
  foreach_callback_removing_current_entry 1 2 3 4 (by decide) (by decide)
    (by decide) (by decide) 0

theorem destroyLoop_fields (ud : Bool) :
    ∀ (fuel : Nat) (s : QState) (cur : Option Nat),
      (destroyLoop ud fuel s cur).1.alive = s.alive ∧
      (destroyLoop ud fuel s cur).1.ref_count = s.ref_count := by
  intro fuel
  induction fuel with
  | zero =>
    intro s cur
    cases cur <;> exact ⟨rfl, rfl⟩
  | succ f ih =>
    intro s cur
    cases cur with
    | none => exact ⟨rfl, rfl⟩
    | some x =>
      rw [destroyLoop_succ]
      cases hl : hlookup s.heap x with
      | none => exact ⟨rfl, rfl⟩
      | some e =>
        exact ⟨(ih { s with heap := herase s.heap x } e.next).1,
          (ih { s with heap := herase s.heap x } e.next).2⟩

/-- C2: a `queue_foreach` callback that destroys the queue while visiting
the second of four entries stops the iteration at that point (the visit
trace is exactly `[A, B]`), and the queue's backing storage is released
only when the outer `queue_foreach` call returns: while the iteration is
running its extra reference keeps the structure alive through
`queue_destroy` (generic conjunct for any state holding at least two
references), the loop also terminates as soon as the reference count
shows the iteration is the sole remaining holder, and after the call the
structure is freed (`alive = false`, reference count `0`). -/
theorem foreach_callback_destroying_queue (a b c d : Nat) (hab : a ≠ b)
    (k : Nat) :
    ((queue_foreach (k + 4) (mk4 a b c d)
        (fun s x => if x = b then (queue_destroy s false).1 else s)).2 =
      [a, b] ∧
     (queue_foreach (k + 4) (mk4 a b c d)
        (fun s x => if x = b then (queue_destroy s false).1 else s)).1.alive
      = false ∧
     (queue_foreach (k + 4) (mk4 a b c d)
        (fun s x => if x = b then (queue_destroy s false).1 else s)).1.ref_count
      = 0) ∧
    (∀ (s : QState) (ud : Bool), 2 ≤ s.ref_count →
      (queue_destroy s ud).1.alive = s.alive ∧
      (queue_destroy s ud).1.ref_count = s.ref_count - 1) ∧
    (∀ (g : QState → Nat → QState) (fuel : Nat) (s : QState) (x : Nat),
      s.ref_count ≤ 1 → foreachLoop g fuel s (some x) = (s, [])) := by
  have main : ∀ g : QState → Nat → QState,
      g (⟨[(3, ⟨d, none⟩), (2, ⟨c, some 3⟩), (1, ⟨b, some 2⟩), (0, ⟨a, some 1⟩)], 4, true, 2, some 0, some 3, 4⟩ : QState) a = (⟨[(3, ⟨d, none⟩), (2, ⟨c, some 3⟩), (1, ⟨b, some 2⟩), (0, ⟨a, some 1⟩)], 4, true, 2, some 0, some 3, 4⟩ : QState) →
      g (⟨[(3, ⟨d, none⟩), (2, ⟨c, some 3⟩), (1, ⟨b, some 2⟩), (0, ⟨a, some 1⟩)], 4, true, 2, some 0, some 3, 4⟩ : QState) b = (⟨[], 4, true, 1, some 0, some 3, 4⟩ : QState) →
      foreachLoop g (k + 4) (⟨[(3, ⟨d, none⟩), (2, ⟨c, some 3⟩), (1, ⟨b, some 2⟩), (0, ⟨a, some 1⟩)], 4, true, 2, some 0, some 3, 4⟩ : QState) (some 0) = ((⟨[], 4, true, 1, some 0, some 3, 4⟩ : QState), [a, b]) := by
    intro g hga hgb
    have it1 : ∀ fl : Nat, foreachLoop g (fl + 1) (⟨[(3, ⟨d, none⟩), (2, ⟨c, some 3⟩), (1, ⟨b, some 2⟩), (0, ⟨a, some 1⟩)], 4, true, 2, some 0, some 3, 4⟩ : QState) (some 0) =
        ((foreachLoop g fl (⟨[(3, ⟨d, none⟩), (2, ⟨c, some 3⟩), (1, ⟨b, some 2⟩), (0, ⟨a, some 1⟩)], 4, true, 2, some 0, some 3, 4⟩ : QState) (some 1)).1,
          a :: (foreachLoop g fl (⟨[(3, ⟨d, none⟩), (2, ⟨c, some 3⟩), (1, ⟨b, some 2⟩), (0, ⟨a, some 1⟩)], 4, true, 2, some 0, some 3, 4⟩ : QState) (some 1)).2) := by
      intro fl
      rw [foreachLoop_succ]
      simp only [show hlookup ([(3, ⟨d, none⟩), (2, ⟨c, some 3⟩), (1, ⟨b, some 2⟩), (0, ⟨a, some 1⟩)] : Heap) 0 = some ⟨a, some 1⟩ from rfl]
      simp only [hga]
      simp only [show queue_find_entry (⟨[(3, ⟨d, none⟩), (2, ⟨c, some 3⟩), (1, ⟨b, some 2⟩), (0, ⟨a, some 1⟩)], 4, true, 2, some 0, some 3, 4⟩ : QState) (some 1) = true from rfl]
      simp only [show ¬((⟨[(3, ⟨d, none⟩), (2, ⟨c, some 3⟩), (1, ⟨b, some 2⟩), (0, ⟨a, some 1⟩)], 4, true, 2, some 0, some 3, 4⟩ : QState).ref_count ≤ 1)
          from (show ¬((2 : Int) ≤ 1) from by decide), if_false, if_true]
    have it2 : ∀ fl : Nat, foreachLoop g (fl + 1) (⟨[(3, ⟨d, none⟩), (2, ⟨c, some 3⟩), (1, ⟨b, some 2⟩), (0, ⟨a, some 1⟩)], 4, true, 2, some 0, some 3, 4⟩ : QState) (some 1) =
        ((⟨[], 4, true, 1, some 0, some 3, 4⟩ : QState), [b]) := by
      intro fl
      rw [foreachLoop_succ]
      simp only [show hlookup ([(3, ⟨d, none⟩), (2, ⟨c, some 3⟩), (1, ⟨b, some 2⟩), (0, ⟨a, some 1⟩)] : Heap) 1 = some ⟨b, some 2⟩ from rfl]
      simp only [hgb]
      simp only [show queue_find_entry (⟨[], 4, true, 1, some 0, some 3, 4⟩ : QState) (some 2) = false from rfl]
      simp only [show ¬((⟨[(3, ⟨d, none⟩), (2, ⟨c, some 3⟩), (1, ⟨b, some 2⟩), (0, ⟨a, some 1⟩)], 4, true, 2, some 0, some 3, 4⟩ : QState).ref_count ≤ 1)
          from (show ¬((2 : Int) ≤ 1) from by decide), Bool.false_eq_true,
        if_false]
    rw [show k + 4 = (k + 3) + 1 from rfl, it1 (k + 3),
      show k + 3 = (k + 2) + 1 from rfl, it2 (k + 2)]
  have hdes : (queue_destroy (⟨[(3, ⟨d, none⟩), (2, ⟨c, some 3⟩), (1, ⟨b, some 2⟩), (0, ⟨a, some 1⟩)], 4, true, 2, some 0, some 3, 4⟩ : QState) false).1 = (⟨[], 4, true, 1, some 0, some 3, 4⟩ : QState) := rfl
  have happ := main (fun s x => if x = b then (queue_destroy s false).1 else s)
    (by simp only [hab, if_false])
    (by simp only [eq_self_iff_true, if_true]; rw [hdes])
  refine ⟨⟨?_, ?_, ?_⟩, ?_, ?_⟩
  · show (foreachLoop
      (fun s x => if x = b then (queue_destroy s false).1 else s)
      (k + 4) (⟨[(3, ⟨d, none⟩), (2, ⟨c, some 3⟩), (1, ⟨b, some 2⟩), (0, ⟨a, some 1⟩)], 4, true, 2, some 0, some 3, 4⟩ : QState) (some 0)).2 = [a, b]
    rw [happ]
  · show (queue_unref (foreachLoop
      (fun s x => if x = b then (queue_destroy s false).1 else s)
      (k + 4) (⟨[(3, ⟨d, none⟩), (2, ⟨c, some 3⟩), (1, ⟨b, some 2⟩), (0, ⟨a, some 1⟩)], 4, true, 2, some 0, some 3, 4⟩ : QState) (some 0)).1).alive = false
    rw [happ]
    rfl
  · show (queue_unref (foreachLoop
      (fun s x => if x = b then (queue_destroy s false).1 else s)
      (k + 4) (⟨[(3, ⟨d, none⟩), (2, ⟨c, some 3⟩), (1, ⟨b, some 2⟩), (0, ⟨a, some 1⟩)], 4, true, 2, some 0, some 3, 4⟩ : QState) (some 0)).1).ref_count = 0
    rw [happ]
    rfl
  · intro s ud h2
    obtain ⟨hA, hR⟩ :=
      destroyLoop_fields ud (s.heap.length + 1) s s.head
    constructor
    · show (queue_unref
        (destroyLoop ud (s.heap.length + 1) s s.head).1).alive = s.alive
      rw [queue_unref, hR, if_neg (by omega)]
      exact hA
    · show (queue_unref
        (destroyLoop ud (s.heap.length + 1) s s.head).1).ref_count =
          s.ref_count - 1
      rw [queue_unref, hR, if_neg (by omega)]
  · exact fun g fuel s x h => foreachLoop_stop g fuel s x h

theorem foreach_callback_destroying_queue_witness :
    (queue_foreach (0 + 4) (mk4 1 2 3 4)
      (fun s x => if x = 2 then (queue_destroy s false).1 else s)).2 =
      [1, 2] ∧
    (queue_foreach (0 + 4) (mk4 1 2 3 4)
      (fun s x => if x = 2 then (queue_destroy s false).1 else s)).1.alive
      = false :=
  ⟨(foreach_callback_destroying_queue 1 2 3 4 (by decide) 0).1.1,
   (foreach_callback_destroying_queue 1 2 3 4 (by decide) 0).1.2.1⟩
